import Mathlib

/-!
The AVL dictionary of `lab_2/main.cpp`.

A shallow embedding of the class `AVLTree` (a case-insensitive dictionary from
strings to 64-bit values, kept in an AVL tree, with a binary save/load format)
and a verification of its behaviour.

Modelling conventions.

* A `std::string` is the list of its bytes (`List Nat`, each byte below 256);
  `operator<` on strings is the byte-wise lexicographic comparison `strLess`.
* A `uint64_t` value is a `Nat` below `2 ^ 64`; the cached `int height` is an `Int`.
* A `Node*` is a `Node`; `nullptr` is `Node.nil`.  The tree object is its `root`.
* The C++ code updates nodes in place and signals "Exist" / "NoSuchWord" by
  throwing `std::logic_error`.  A call of a recursive helper therefore ends in one
  of three ways (`Res`): it returns a pointer, it throws (and we record the
  contents of the memory of the subtree at that moment, because the caller keeps
  using it), or it dereferences a null pointer (`undefined`).
* A file is the list of its bytes; multi-byte integers are little-endian (the
  native order of the platforms the program is built for).  `save` and `load` are
  modelled on a file that opens; `save` is the byte sequence written.
* The cached heights never leave the range of `int` (an AVL tree of height 2^31 does
  not fit in memory), so they are unbounded integers here.
* `load` inserts the decoded keys as they are, and does not catch the
  `std::logic_error` of `insertNode`: a duplicate key in the file makes that exception
  leave `load`, the live tree being untouched (`LoadOutcome.logicError`).
-/

namespace AVLTree

/-- A string key: the list of its bytes. -/
abbrev Key := List Nat

/-- Byte-wise lexicographic comparison, `std::string::operator<`. -/
def strLess : Key → Key → Bool
  | [], [] => false
  | [], _ :: _ => true
  | _ :: _, [] => false
  | a :: as, b :: bs =>
    if a < b then true else if b < a then false else strLess as bs

/-- The function `std::tolower` on one byte, in the "C" locale (the program never
changes the locale): the letters `A`..`Z` are moved to `a`..`z`. -/
def tolower (c : Nat) : Nat := if 65 ≤ c ∧ c ≤ 90 then c + 32 else c

/-- The function `AVLTree::toLower`: lower-cases every byte of the string. -/
def toLower (s : Key) : Key := s.map tolower

/-- The structure `AVLTree::Node`, with `nil` for the null pointer. -/
inductive Node where
  | nil
  | node (key : Key) (value : Nat) (height : Int) (left right : Node)
  deriving DecidableEq

/-- The test `!n` on a pointer. -/
def Node.isNull : Node → Bool
  | .nil => true
  | .node _ _ _ _ _ => false

/-- The two `std::logic_error`s thrown by the helpers. -/
inductive Exn where
  | exist
  | noSuchWord
  deriving DecidableEq

/-- How a call of `insertNode` / `removeNode` ends. -/
inductive Res where
  | ok (n : Node)
  | thrown (e : Exn) (mem : Node)
  | undefined
  deriving DecidableEq

/-- The function `AVLTree::height`: the cached height, `0` for the null pointer. -/
def height : Node → Int
  | .nil => 0
  | .node _ _ h _ _ => h

/-- The function `AVLTree::balanceFactor`; dereferences its argument. -/
def balanceFactor : Node → Option Int
  | .nil => none
  | .node _ _ _ l r => some (height r - height l)

/-- The function `AVLTree::updateHeight`; dereferences its argument. -/
def updateHeight : Node → Option Node
  | .nil => none
  | .node k v _ l r => some (.node k v (1 + max (height l) (height r)) l r)

/-- The function `AVLTree::rotateRight`; dereferences `y` and `y->left`. -/
def rotateRight : Node → Option Node
  | .node yk yv yh (.node xk xv xh xl t2) yr => do
    let y ← updateHeight (.node yk yv yh t2 yr)
    updateHeight (.node xk xv xh xl y)
  | _ => none

/-- The function `AVLTree::rotateLeft`; dereferences `x` and `x->right`. -/
def rotateLeft : Node → Option Node
  | .node xk xv xh xl (.node yk yv yh t2 yr) => do
    let x ← updateHeight (.node xk xv xh xl t2)
    updateHeight (.node yk yv yh x yr)
  | _ => none

/-- The function `AVLTree::balance`. -/
def balance (n : Node) : Option Node := do
  let n ← updateHeight n
  let bf ← balanceFactor n
  match n with
  | .nil => none
  | .node k v h l r =>
    if bf < -1 then do
      if (← balanceFactor l) > 0 then
        rotateRight (.node k v h (← rotateLeft l) r)
      else
        rotateRight (.node k v h l r)
    else if bf > 1 then do
      if (← balanceFactor r) < 0 then
        rotateLeft (.node k v h l (← rotateRight r))
      else
        rotateLeft (.node k v h l r)
    else
      some (.node k v h l r)

/-- The end of `insertNode` / `removeNode`: `return balance(n)`. -/
def returnBalance (n : Node) : Res :=
  match balance n with
  | some m => .ok m
  | none => .undefined

/-- The function `AVLTree::insertNode`. -/
def insertNode : Node → Key → Nat → Res
  | .nil, k, v => .ok (.node k v 1 .nil .nil)
  | .node nk nv h l r, k, v =>
    if strLess k nk then
      match insertNode l k v with
      | .ok l1 => returnBalance (.node nk nv h l1 r)
      | .thrown e l1 => .thrown e (.node nk nv h l1 r)
      | .undefined => .undefined
    else if strLess nk k then
      match insertNode r k v with
      | .ok r1 => returnBalance (.node nk nv h l r1)
      | .thrown e r1 => .thrown e (.node nk nv h l r1)
      | .undefined => .undefined
    else
      .thrown .exist (.node nk nv h l r)

/-- The function `AVLTree::minValueNode`; dereferences its argument. -/
def minValueNode : Node → Option Node
  | .nil => none
  | .node k v h .nil r => some (.node k v h .nil r)
  | .node _ _ _ (.node lk lv lh ll lr) _ => minValueNode (.node lk lv lh ll lr)

/-- The function `AVLTree::removeNode`. -/
def removeNode : Node → Key → Res
  | .nil, _ => .thrown .noSuchWord .nil
  | .node nk nv h l r, k =>
    if strLess k nk then
      match removeNode l k with
      | .ok l1 => returnBalance (.node nk nv h l1 r)
      | .thrown e l1 => .thrown e (.node nk nv h l1 r)
      | .undefined => .undefined
    else if strLess nk k then
      match removeNode r k with
      | .ok r1 => returnBalance (.node nk nv h l r1)
      | .thrown e r1 => .thrown e (.node nk nv h l r1)
      | .undefined => .undefined
    else if l.isNull || r.isNull then
      .ok (if !l.isNull then l else r)
    else
      match minValueNode r with
      | some (.node sk sv _ _ _) =>
        match removeNode r sk with
        | .ok r1 => returnBalance (.node sk sv h l r1)
        | .thrown e r1 => .thrown e (.node sk sv h l r1)
        | .undefined => .undefined
      | _ => .undefined

/-- The function `AVLTree::findNode`. -/
def findNode : Node → Key → Node
  | .nil, _ => .nil
  | .node nk nv h l r, k =>
    if strLess k nk then findNode l k
    else if strLess nk k then findNode r k
    else .node nk nv h l r

/-- The function `AVLTree::countNodes`, a `uint64_t`. -/
def countNodes : Node → Nat
  | .nil => 0
  | .node _ _ _ l r => (1 + countNodes l + countNodes r) % 2 ^ 64

/-- A little-endian unsigned integer of `width` bytes, as `ostream::write` emits the
object representation of a `uint16_t` / `uint64_t`. -/
def writeLE (width x : Nat) : List Nat :=
  (List.range width).map fun i => x / 256 ^ i % 256

/-- The unsigned integer held by little-endian bytes, as `istream::read` stores it. -/
def readLE (bytes : List Nat) : Nat :=
  bytes.foldr (fun b acc => b + 256 * acc) 0

/-- The call `in.read(p, n)` on the rest of the file: the `n` bytes read and the rest of
the stream, or `none` when fewer than `n` bytes are left (the stream fails). -/
def streamRead (n : Nat) (s : List Nat) : Option (List Nat × List Nat) :=
  if n ≤ s.length then some (s.take n, s.drop n) else none

/-- The function `AVLTree::inorderSave`; `out` is what the stream holds so far. -/
def inorderSave : Node → List Nat → List Nat
  | .nil, out => out
  | .node k v _ l r, out =>
    let out := inorderSave l out
    let len := k.length % 2 ^ 16
    let out := out ++ writeLE 2 len
    let out := out ++ k.take len
    let out := out ++ writeLE 8 v
    inorderSave r out

/-- The function `AVLTree::insert`: the root afterwards and the returned flag; `none` when the call
dereferences a null pointer. -/
def insert (root : Node) (key : Key) (value : Nat) : Option (Node × Bool) :=
  let k := toLower key
  match insertNode root k value with
  | .ok r => some (r, true)
  | .thrown _ mem => some (mem, false)
  | .undefined => none

/-- The function `AVLTree::remove`: the root afterwards and the returned flag. -/
def remove (root : Node) (key : Key) : Option (Node × Bool) :=
  let k := toLower key
  match removeNode root k with
  | .ok r => some (r, true)
  | .thrown _ mem => some (mem, false)
  | .undefined => none

/-- The function `AVLTree::find`: `some v` when it returns `true` with `out = v`, `none` when it
returns `false`. -/
def find (root : Node) (key : Key) : Option Nat :=
  let k := toLower key
  match findNode root k with
  | .node _ v _ _ _ => some v
  | .nil => none

/-- The function `AVLTree::save`: the bytes written to the (successfully opened) file. -/
def save (root : Node) : List Nat :=
  let cnt := countNodes root
  let out := writeLE 8 cnt
  inorderSave root out

/-- How a call of `load` ends, with the root of the live tree afterwards:
normal return, `std::runtime_error("ERROR: invalid format")`, the `std::logic_error`
of `insertNode` leaving `load`, or a null dereference. -/
inductive LoadOutcome where
  | ok (root : Node)
  | invalidFormat (root : Node)
  | logicError (root : Node)
  | undefined
  deriving DecidableEq

/-- The loop of `AVLTree::load` with `todo` iterations left, and the replacement of the
live tree after it; `s` is the unread rest of the file and `tmp` the root of `tmp`. -/
def loadLoop (root : Node) : Nat → List Nat → Node → LoadOutcome
  | 0, _, tmp => .ok tmp
  | todo + 1, s, tmp =>
    match streamRead 2 s with
    | none => .invalidFormat root
    | some (lenBytes, s) =>
      let len := readLE lenBytes
      match streamRead len s with
      | none => .invalidFormat root
      | some (key, s) =>
        match streamRead 8 s with
        | none => .invalidFormat root
        | some (valBytes, s) =>
          let val := readLE valBytes
          match insertNode tmp key val with
          | .ok tmp1 => loadLoop root todo s tmp1
          | .thrown _ _ => .logicError root
          | .undefined => .undefined

/-- The function `AVLTree::load` on the contents of the (successfully opened) file. -/
def load (root : Node) (file : List Nat) : LoadOutcome :=
  match streamRead 8 file with
  | none => .invalidFormat root
  | some (cntBytes, s) => loadLoop root (readLE cntBytes) s .nil

/-- One call of the public interface that changes the tree. -/
inductive Call where
  | insert (key : Key) (value : Nat)
  | remove (key : Key)
  | load (file : List Nat)
  deriving DecidableEq

/-- The root after one call, whether the call succeeded or failed; `none` when the call
dereferences a null pointer. -/
def applyCall (root : Node) : Call → Option Node
  | .insert key value => (insert root key value).map Prod.fst
  | .remove key => (remove root key).map Prod.fst
  | .load file =>
    match load root file with
    | .ok r => some r
    | .invalidFormat r => some r
    | .logicError r => some r
    | .undefined => none

/-- The root after a sequence of calls. -/
def runCalls : Node → List Call → Option Node
  | root, [] => some root
  | root, c :: cs =>
    match applyCall root c with
    | some r => runCalls r cs
    | none => none

/-- A call that is an `insert` or a `remove`. -/
def Call.isUpdate : Call → Bool
  | .load _ => false
  | _ => true

/-! ## Notions used in the statements -/

/-- In-order traversal: the (key, value) entries from left to right. -/
def inorder : Node → List (Key × Nat)
  | .nil => []
  | .node k v _ l r => inorder l ++ (k, v) :: inorder r

/-- The keys met by the in-order traversal. -/
def keys (n : Node) : List Key := (inorder n).map Prod.fst

/-- The number of nodes. -/
def size : Node → Nat
  | .nil => 0
  | .node _ _ _ l r => 1 + size l + size r

/-- The true height of a subtree: `0` when empty, `1` for a leaf. -/
def realHeight : Node → Nat
  | .nil => 0
  | .node _ _ _ l r => 1 + max (realHeight l) (realHeight r)

/-- The test that each key of a list is below the next one. -/
def isAscending : List Key → Bool
  | a :: b :: rest => strLess a b && isAscending (b :: rest)
  | _ => true

/-- A list of keys is strictly ascending: each key is below the next one. -/
def Ascending (ks : List Key) : Prop := isAscending ks = true

instance (ks : List Key) : Decidable (Ascending ks) :=
  inferInstanceAs (Decidable (isAscending ks = true))

/-- The two subtrees of every node have true heights that differ by at most one. -/
def Balanced : Node → Prop
  | .nil => True
  | .node _ _ _ l r =>
    realHeight l ≤ realHeight r + 1 ∧ realHeight r ≤ realHeight l + 1 ∧
      Balanced l ∧ Balanced r

/-- The cached height of every node is the true height of its subtree. -/
def HeightsExact : Node → Prop
  | .nil => True
  | .node _ _ h l r =>
    h = (1 + max (realHeight l) (realHeight r) : Nat) ∧ HeightsExact l ∧ HeightsExact r

/-- The AVL shape in terms of the cached heights: every cached height is one more than
the larger cached height below it, and the two cached heights below differ by at most
one. -/
def Avl : Node → Prop
  | .nil => True
  | .node _ _ h l r =>
    h = 1 + max (height l) (height r) ∧ height r ≤ height l + 1 ∧
      height l ≤ height r + 1 ∧ Avl l ∧ Avl r

/-- A node whose cached height has just been recomputed from its children. -/
def fresh (k : Key) (v : Nat) (l r : Node) : Node :=
  .node k v (1 + max (height l) (height r)) l r

/-- The entries of a list have strictly ascending keys (pairwise). -/
def Sorted (es : List (Key × Nat)) : Prop :=
  es.Pairwise fun a b => strLess a.1 b.1 = true

/-- The search-tree order: the in-order entries have strictly ascending keys. -/
def Ordered (n : Node) : Prop := Sorted (inorder n)

/-- The invariant of the tree: AVL shape with exact cached heights, and search-tree order. -/
def Inv (n : Node) : Prop := Avl n ∧ Ordered n

/-- What reading a file in the format of the specification gives: all the declared
entries, or the entries read before the data ended. -/
inductive Decoded where
  | complete (entries : List (Key × Nat))
  | truncated (entries : List (Key × Nat))
  deriving DecidableEq

/-- One entry of the file format: a 2-byte key length, that many key bytes and an 8-byte
value; `none` when the data ends before the entry is complete. -/
def decodeEntry (s : List Nat) : Option ((Key × Nat) × List Nat) :=
  match streamRead 2 s with
  | none => none
  | some (lenBytes, s) =>
    match streamRead (readLE lenBytes) s with
    | none => none
    | some (key, s) =>
      match streamRead 8 s with
      | none => none
      | some (valBytes, s) => some ((key, readLE valBytes), s)

/-- The next `count` entries of the file format. -/
def decodeEntries : Nat → List Nat → Decoded
  | 0, _ => .complete []
  | count + 1, s =>
    match decodeEntry s with
    | none => .truncated []
    | some (e, s) =>
      match decodeEntries count s with
      | .complete es => .complete (e :: es)
      | .truncated es => .truncated (e :: es)

/-- The file format: an 8-byte entry count, then that many entries. -/
def decodeFile (file : List Nat) : Decoded :=
  match streamRead 8 file with
  | none => .truncated []
  | some (cntBytes, s) => decodeEntries (readLE cntBytes) s

/-- The bytes of one entry in the file format. -/
def encodeEntry (e : Key × Nat) : List Nat :=
  writeLE 2 (e.1.length % 2 ^ 16) ++ e.1.take (e.1.length % 2 ^ 16) ++ writeLE 8 e.2

/-- The bytes of a sequence of entries in the file format. -/
def encodeEntries : List (Key × Nat) → List Nat
  | [] => []
  | e :: es => encodeEntry e ++ encodeEntries es

/-- One entry as the specification lays it out in a file: the byte length of the key as
a 16-bit unsigned integer, the bytes of the key, the value as a 64-bit unsigned integer. -/
def formatEntry (e : Key × Nat) : List Nat :=
  writeLE 2 e.1.length ++ e.1 ++ writeLE 8 e.2

/-- The entries of a file as the specification lays them out, one after the other. -/
def formatEntries : List (Key × Nat) → List Nat
  | [] => []
  | e :: es => formatEntry e ++ formatEntries es

/-- A file as the specification lays it out: the number of entries as a 64-bit unsigned
integer, then the entries. -/
def formatFile (es : List (Key × Nat)) : List Nat :=
  writeLE 8 es.length ++ formatEntries es

/-- The single-child removal of the leftmost node of a subtree, as the recursion of
`removeNode` performs it: descend along the left children; the node that has no left
child is unlinked and replaced by its right child; every node passed is rebalanced on
the way back. -/
def removeLeftmost : Node → Res
  | .nil => .thrown .noSuchWord .nil
  | .node _ _ _ .nil r => .ok r
  | .node k v h (.node lk lv lh ll lr) r =>
    match removeLeftmost (.node lk lv lh ll lr) with
    | .ok l1 => returnBalance (.node k v h l1 r)
    | .thrown e l1 => .thrown e (.node k v h l1 r)
    | .undefined => .undefined

/-- The test that a call keeps keys in normalized form: for a `load`, that the keys of
the file, when the file holds all its declared entries, are lower-cased already. -/
def Call.keysNormalized : Call → Bool
  | .load file =>
    match decodeFile file with
    | .complete es => es.all fun e => toLower e.1 == e.1
    | .truncated _ => true
  | _ => true

/-! ## The order on keys -/

theorem strLess_irrefl (a : Key) : strLess a a = false := by
  induction a with
  | nil => rfl
  | cons x xs ih => simp [strLess, ih]

theorem strLess_trans : ∀ {a b c : Key},
    strLess a b = true → strLess b c = true → strLess a c = true
  | [], [], _, h, _ => by simp [strLess] at h
  | [], _ :: _, [], _, h => by simp [strLess] at h
  | [], _ :: _, _ :: _, _, _ => by simp [strLess]
  | _ :: _, [], _, h, _ => by simp [strLess] at h
  | _ :: _, _ :: _, [], _, h => by simp [strLess] at h
  | x :: xs, y :: ys, z :: zs, h1, h2 => by
    simp only [strLess] at h1 h2 ⊢
    split_ifs at h1 h2 ⊢ <;> first
      | rfl
      | omega
      | exact strLess_trans h1 h2

theorem strLess_asymm {a b : Key} (h : strLess a b = true) : strLess b a = false := by
  cases hba : strLess b a with
  | false => rfl
  | true =>
    have := strLess_trans h hba
    rw [strLess_irrefl] at this
    cases this

theorem strLess_connex : ∀ {a b : Key},
    strLess a b = false → strLess b a = false → a = b
  | [], [], _, _ => rfl
  | [], _ :: _, h, _ => by simp [strLess] at h
  | _ :: _, [], _, h => by simp [strLess] at h
  | x :: xs, y :: ys, h1, h2 => by
    simp only [strLess] at h1 h2
    split_ifs at h1 h2
    have hxy : x = y := by omega
    rw [hxy, strLess_connex h1 h2]

theorem strLess_ne {a b : Key} (h : strLess a b = true) : a ≠ b := by
  intro hab
  rw [hab, strLess_irrefl] at h
  exact Bool.false_ne_true h

theorem ascending_iff_pairwise : ∀ ks : List Key,
    Ascending ks ↔ ks.Pairwise (fun a b => strLess a b = true)
  | [] => by simp [Ascending, isAscending]
  | [a] => by simp [Ascending, isAscending]
  | a :: b :: rest => by
    have ih := ascending_iff_pairwise (b :: rest)
    simp only [Ascending, isAscending, Bool.and_eq_true] at ih ⊢
    constructor
    · rintro ⟨hab, hp⟩
      have hp2 := ih.1 hp
      refine List.pairwise_cons.2 ⟨fun c hc => ?_, hp2⟩
      rcases List.mem_cons.1 hc with rfl | hc
      · exact hab
      · exact strLess_trans hab ((List.pairwise_cons.1 hp2).1 c hc)
    · intro hp
      obtain ⟨h1, hp2⟩ := List.pairwise_cons.1 hp
      exact ⟨h1 b (List.mem_cons_self _ _), ih.2 hp2⟩

/-! ## Heights and rotations -/

@[simp] theorem height_nil : height .nil = 0 := rfl

@[simp] theorem height_node (k : Key) (v : Nat) (h : Int) (l r : Node) :
    height (.node k v h l r) = h := rfl

@[simp] theorem height_fresh (k : Key) (v : Nat) (l r : Node) :
    height (fresh k v l r) = 1 + max (height l) (height r) := rfl

@[simp] theorem inorder_fresh (k : Key) (v : Nat) (l r : Node) :
    inorder (fresh k v l r) = inorder l ++ (k, v) :: inorder r := rfl

theorem rotateRight_node (yk : Key) (yv : Nat) (yh : Int) (xk : Key) (xv : Nat) (xh : Int)
    (xl t2 yr : Node) :
    rotateRight (.node yk yv yh (.node xk xv xh xl t2) yr) =
      some (fresh xk xv xl (fresh yk yv t2 yr)) := rfl

theorem rotateLeft_node (xk : Key) (xv : Nat) (xh : Int) (yk : Key) (yv : Nat) (yh : Int)
    (xl t2 yr : Node) :
    rotateLeft (.node xk xv xh xl (.node yk yv yh t2 yr)) =
      some (fresh yk yv (fresh xk xv xl t2) yr) := rfl

theorem balance_keep (k : Key) (v : Nat) (h : Int) (l r : Node)
    (c1 : ¬ height r - height l < -1) (c2 : ¬ height r - height l > 1) :
    balance (.node k v h l r) = some (fresh k v l r) := by
  simp [balance, updateHeight, balanceFactor, c1, c2, fresh]

theorem balance_left_left (k : Key) (v : Nat) (h : Int) (lk : Key) (lv : Nat) (lh : Int)
    (ll lr r : Node) (c1 : height r - lh < -1) (c2 : ¬ height lr - height ll > 0) :
    balance (.node k v h (.node lk lv lh ll lr) r) = some (fresh lk lv ll (fresh k v lr r)) := by
  simp [balance, updateHeight, balanceFactor, rotateRight_node, c1, c2, fresh]

theorem balance_left_right (k : Key) (v : Nat) (h : Int) (lk : Key) (lv : Nat) (lh : Int)
    (mk : Key) (mv : Nat) (mh : Int) (ll ml mr r : Node)
    (c1 : height r - lh < -1) (c2 : mh - height ll > 0) :
    balance (.node k v h (.node lk lv lh ll (.node mk mv mh ml mr)) r) =
      some (fresh mk mv (fresh lk lv ll ml) (fresh k v mr r)) := by
  simp [balance, updateHeight, balanceFactor, rotateLeft_node, rotateRight_node, c1, c2, fresh]

theorem balance_right_right (k : Key) (v : Nat) (h : Int) (rk : Key) (rv : Nat) (rh : Int)
    (l rl rr : Node) (c1 : ¬ rh - height l < -1) (c2 : rh - height l > 1)
    (c3 : ¬ height rr - height rl < 0) :
    balance (.node k v h l (.node rk rv rh rl rr)) = some (fresh rk rv (fresh k v l rl) rr) := by
  simp [balance, updateHeight, balanceFactor, rotateLeft_node, c1, c2, c3, fresh]

theorem balance_right_left (k : Key) (v : Nat) (h : Int) (rk : Key) (rv : Nat) (rh : Int)
    (mk : Key) (mv : Nat) (mh : Int) (l ml mr rr : Node)
    (c1 : ¬ rh - height l < -1) (c2 : rh - height l > 1) (c3 : height rr - mh < 0) :
    balance (.node k v h l (.node rk rv rh (.node mk mv mh ml mr) rr)) =
      some (fresh mk mv (fresh k v l ml) (fresh rk rv mr rr)) := by
  simp [balance, updateHeight, balanceFactor, rotateLeft_node, rotateRight_node, c1, c2, c3, fresh]

theorem avl_height_nonneg : ∀ {n : Node}, Avl n → 0 ≤ height n
  | .nil, _ => by simp
  | .node _ _ h l r, hn => by
    obtain ⟨e, -, -, al, ar⟩ := hn
    have := avl_height_nonneg al
    have := avl_height_nonneg ar
    simp only [height_node]; omega

theorem avl_height_eq : ∀ {n : Node}, Avl n → height n = (realHeight n : Int)
  | .nil, _ => by simp [realHeight]
  | .node _ _ h l r, hn => by
    obtain ⟨e, -, -, al, ar⟩ := hn
    have := avl_height_eq al
    have := avl_height_eq ar
    simp only [height_node, realHeight]; omega

theorem avl_fresh {l r : Node} (k : Key) (v : Nat) (al : Avl l) (ar : Avl r)
    (h1 : height r ≤ height l + 1) (h2 : height l ≤ height r + 1) : Avl (fresh k v l r) :=
  ⟨rfl, h1, h2, al, ar⟩

theorem balance_spec {l r : Node} (k : Key) (v : Nat) (h : Int)
    (al : Avl l) (ar : Avl r)
    (h1 : height l ≤ height r + 2) (h2 : height r ≤ height l + 2) :
    ∃ m, balance (.node k v h l r) = some m ∧ Avl m ∧
      inorder m = inorder l ++ (k, v) :: inorder r ∧
      (height m = 1 + max (height l) (height r) ∨
        height m = max (height l) (height r) ∧
          (height l = height r + 2 ∨ height r = height l + 2)) := by
  have hl0 := avl_height_nonneg al
  have hr0 := avl_height_nonneg ar
  by_cases c1 : height r - height l < -1
  · cases l with
    | nil => simp only [height_nil] at c1; omega
    | node lk lv lh ll lr =>
      obtain ⟨e, b1, b2, all, alr⟩ := al
      have hll0 := avl_height_nonneg all
      have hlr0 := avl_height_nonneg alr
      simp only [height_node] at c1 h1 h2 hl0 ⊢
      by_cases c2 : height lr - height ll > 0
      · cases lr with
        | nil => simp only [height_nil] at c2; omega
        | node mk mv mh ml mr =>
          obtain ⟨e3, b3, b4, aml, amr⟩ := alr
          have hml0 := avl_height_nonneg aml
          have hmr0 := avl_height_nonneg amr
          simp only [height_node] at c2 e b1 b2 hlr0
          refine ⟨_, balance_left_right k v h lk lv lh mk mv mh ll ml mr r c1 c2, ?_, ?_, ?_⟩
          · refine avl_fresh _ _ (avl_fresh _ _ all aml ?_ ?_) (avl_fresh _ _ amr ar ?_ ?_) ?_ ?_
            all_goals first | omega | (simp only [height_fresh]; omega)
          · simp [inorder]
          · simp only [height_fresh]; omega
      · refine ⟨_, balance_left_left k v h lk lv lh ll lr r c1 c2, ?_, ?_, ?_⟩
        · refine avl_fresh _ _ all (avl_fresh _ _ alr ar ?_ ?_) ?_ ?_
          all_goals first | omega | (simp only [height_fresh]; omega)
        · simp [inorder]
        · simp only [height_fresh]; omega
  · by_cases c3 : height r - height l > 1
    · cases r with
      | nil => simp only [height_nil] at c3; omega
      | node rk rv rh rl rr =>
        obtain ⟨e, b1, b2, arl, arr⟩ := ar
        have hrl0 := avl_height_nonneg arl
        have hrr0 := avl_height_nonneg arr
        simp only [height_node] at c1 c3 h1 h2 hr0 ⊢
        by_cases c4 : height rr - height rl < 0
        · cases rl with
          | nil => simp only [height_nil] at c4; omega
          | node mk mv mh ml mr =>
            obtain ⟨e3, b3, b4, aml, amr⟩ := arl
            have hml0 := avl_height_nonneg aml
            have hmr0 := avl_height_nonneg amr
            simp only [height_node] at c4 e b1 b2 hrl0
            refine ⟨_, balance_right_left k v h rk rv rh mk mv mh l ml mr rr c1 c3 c4, ?_, ?_, ?_⟩
            · refine avl_fresh _ _ (avl_fresh _ _ al aml ?_ ?_) (avl_fresh _ _ amr arr ?_ ?_) ?_ ?_
              all_goals first | omega | (simp only [height_fresh]; omega)
            · simp [inorder]
            · simp only [height_fresh]; omega
        · refine ⟨_, balance_right_right k v h rk rv rh l rl rr c1 c3 c4, ?_, ?_, ?_⟩
          · refine avl_fresh _ _ (avl_fresh _ _ al arl ?_ ?_) arr ?_ ?_
            all_goals first | omega | (simp only [height_fresh]; omega)
          · simp [inorder]
          · simp only [height_fresh]; omega
    · refine ⟨_, balance_keep k v h l r c1 c3, ?_, ?_, ?_⟩
      · exact avl_fresh _ _ al ar (by omega) (by omega)
      · simp
      · exact Or.inl rfl

/-! ## Sorted entry lists -/

theorem sorted_append_cons {l1 l2 : List (Key × Nat)} {k : Key} {v : Nat} :
    Sorted (l1 ++ (k, v) :: l2) ↔
      Sorted l1 ∧ Sorted l2 ∧ (∀ e ∈ l1, strLess e.1 k = true) ∧
        (∀ e ∈ l2, strLess k e.1 = true) := by
  unfold Sorted
  rw [List.pairwise_append, List.pairwise_cons]
  constructor
  · rintro ⟨h1, ⟨h2, h3⟩, h4⟩
    exact ⟨h1, h3, fun e he => h4 e he (k, v) (List.mem_cons_self _ _), h2⟩
  · rintro ⟨h1, h2, h3, h4⟩
    refine ⟨h1, ⟨h4, h2⟩, ?_⟩
    intro a ha b hb
    rcases List.mem_cons.1 hb with rfl | hb
    · exact h3 a ha
    · exact strLess_trans (h3 a ha) (h4 b hb)

theorem ordered_node {k : Key} {v : Nat} {h : Int} {l r : Node} :
    Ordered (.node k v h l r) ↔
      Ordered l ∧ Ordered r ∧ (∀ e ∈ inorder l, strLess e.1 k = true) ∧
        (∀ e ∈ inorder r, strLess k e.1 = true) :=
  sorted_append_cons

theorem returnBalance_eq {n m : Node} (h : balance n = some m) : returnBalance n = .ok m := by
  simp [returnBalance, h]

/-- What `insertNode` does on an AVL search tree: either the key is present, and the call
throws leaving the memory as it was, or the key is absent, and the call returns an AVL
tree whose in-order sequence is the old one with the new entry put at its place. -/
theorem insertNode_spec (k : Key) (v : Nat) : ∀ (n : Node), Avl n → Ordered n →
    ((∃ w, (k, w) ∈ inorder n) ∧ insertNode n k v = .thrown .exist n) ∨
    ∃ m l1 l2, insertNode n k v = .ok m ∧ Avl m ∧
      inorder n = l1 ++ l2 ∧ inorder m = l1 ++ (k, v) :: l2 ∧
      (∀ e ∈ l1, strLess e.1 k = true) ∧ (∀ e ∈ l2, strLess k e.1 = true) ∧
      (height m = height n ∨ height m = height n + 1)
  | .nil, _, _ => by
    right
    refine ⟨.node k v 1 .nil .nil, [], [], rfl, ?_, rfl, rfl, ?_, ?_, ?_⟩
    · simp [Avl]
    · simp
    · simp
    · simp
  | .node nk nv h l r, an, hon => by
    obtain ⟨e, b1, b2, al, ar⟩ := an
    obtain ⟨ol, hor, hl, hr⟩ := ordered_node.1 hon
    by_cases c1 : strLess k nk = true
    · rcases insertNode_spec k v l al ol with ⟨⟨w, hw⟩, ht⟩ | ⟨m, l1, l2, hm, am, e1, e2, p1, p2, hh⟩
      · left
        refine ⟨⟨w, by simp [inorder, hw]⟩, ?_⟩
        simp [insertNode, c1, ht]
      · right
        obtain ⟨m2, hb, am2, i2, hh2⟩ := balance_spec nk nv h am ar (by omega) (by omega)
        refine ⟨m2, l1, l2 ++ (nk, nv) :: inorder r, ?_, am2, ?_, ?_, p1, ?_, ?_⟩
        · simp [insertNode, c1, hm, returnBalance_eq hb]
        · simp [inorder, e1]
        · simp [i2, e2]
        · intro x hx
          rcases List.mem_append.1 hx with hx | hx
          · exact p2 x hx
          · rcases List.mem_cons.1 hx with rfl | hx
            · exact c1
            · exact strLess_trans c1 (hr x hx)
        · simp only [height_node]; omega
    · by_cases c2 : strLess nk k = true
      · rcases insertNode_spec k v r ar hor with ⟨⟨w, hw⟩, ht⟩ | ⟨m, l1, l2, hm, am, e1, e2, p1, p2, hh⟩
        · left
          refine ⟨⟨w, by simp [inorder, hw]⟩, ?_⟩
          simp [insertNode, c1, c2, ht]
        · right
          obtain ⟨m2, hb, am2, i2, hh2⟩ := balance_spec nk nv h al am (by omega) (by omega)
          refine ⟨m2, inorder l ++ (nk, nv) :: l1, l2, ?_, am2, ?_, ?_, ?_, p2, ?_⟩
          · simp [insertNode, c1, c2, hm, returnBalance_eq hb]
          · simp [inorder, e1]
          · simp [i2, e2]
          · intro x hx
            rcases List.mem_append.1 hx with hx | hx
            · exact strLess_trans (hl x hx) c2
            · rcases List.mem_cons.1 hx with rfl | hx
              · exact c2
              · exact p1 x hx
          · simp only [height_node]; omega
      · left
        have hk : k = nk := strLess_connex (by simpa using c1) (by simpa using c2)
        refine ⟨⟨nv, by simp [inorder, hk]⟩, ?_⟩
        simp [insertNode, c1, c2]

theorem sorted_head_unique {l1 l2 rest : List (Key × Nat)} {k : Key} {w w2 : Nat}
    (hs : Sorted (l1 ++ (k, w) :: l2)) (he : l1 ++ (k, w) :: l2 = (k, w2) :: rest) :
    l1 = [] ∧ w = w2 ∧ l2 = rest := by
  cases l1 with
  | nil =>
    simp only [List.nil_append, List.cons.injEq, Prod.mk.injEq, true_and] at he
    exact ⟨rfl, he.1, he.2⟩
  | cons x xs =>
    exfalso
    simp only [List.cons_append, List.cons.injEq] at he
    obtain ⟨hx, -⟩ := he
    subst hx
    have h1 := (List.pairwise_cons.1 hs).1 (k, w) (by simp)
    simp [strLess_irrefl] at h1

theorem minValueNode_spec : ∀ (k : Key) (v : Nat) (h : Int) (l r : Node),
    ∃ sk sv sh sr rest, minValueNode (.node k v h l r) = some (.node sk sv sh .nil sr) ∧
      inorder (.node k v h l r) = (sk, sv) :: rest
  | k, v, h, .nil, r => ⟨k, v, h, r, inorder r, rfl, rfl⟩
  | k, v, h, .node lk lv lh ll lr, r => by
    obtain ⟨sk, sv, sh, sr, rest, h1, h2⟩ := minValueNode_spec lk lv lh ll lr
    refine ⟨sk, sv, sh, sr, rest ++ (k, v) :: inorder r, ?_, ?_⟩
    · rw [minValueNode, h1]
    · rw [inorder, h2]; rfl

theorem removeNode_two_children (nk : Key) (nv : Nat) (h : Int) (l r : Node)
    (hl : l.isNull = false) (hr : r.isNull = false) :
    removeNode (.node nk nv h l r) nk =
      match minValueNode r with
      | some (.node sk sv _ _ _) =>
        match removeNode r sk with
        | .ok r1 => returnBalance (.node sk sv h l r1)
        | .thrown e r1 => .thrown e (.node sk sv h l r1)
        | .undefined => .undefined
      | _ => .undefined := by
  rw [removeNode]
  simp only [strLess_irrefl, hl, hr]
  rfl

/-- What `removeNode` does on an AVL search tree: either the key is absent, and the call
throws leaving the memory as it was, or the key is present, and the call returns an AVL
tree whose in-order sequence is the old one without the entry of that key. -/
theorem removeNode_spec : ∀ (n : Node) (k : Key), Avl n → Ordered n →
    ((∀ w, (k, w) ∉ inorder n) ∧ removeNode n k = .thrown .noSuchWord n) ∨
    ∃ m w l1 l2, removeNode n k = .ok m ∧ Avl m ∧
      inorder n = l1 ++ (k, w) :: l2 ∧ inorder m = l1 ++ l2 ∧
      (height m = height n ∨ height m + 1 = height n)
  | .nil, _, _, _ => Or.inl ⟨by simp [inorder], rfl⟩
  | .node nk nv h l r, k, an, hon => by
    obtain ⟨e, b1, b2, al, ar⟩ := an
    obtain ⟨ol, hor, hl, hr⟩ := ordered_node.1 hon
    have hl0 := avl_height_nonneg al
    have hr0 := avl_height_nonneg ar
    have ihl := removeNode_spec l k al ol
    have ihr := fun k2 => removeNode_spec r k2 ar hor
    by_cases c1 : strLess k nk = true
    · rcases ihl with ⟨hw, ht⟩ | ⟨m, w, l1, l2, hm, am, e1, e2, hh⟩
      · left
        constructor
        · intro w hmem
          simp only [inorder, List.mem_append, List.mem_cons, Prod.mk.injEq] at hmem
          rcases hmem with hmem | ⟨rfl, -⟩ | hmem
          · exact hw w hmem
          · simp [strLess_irrefl] at c1
          · have := strLess_asymm (hr _ hmem)
            simp [c1] at this
        · simp [removeNode, c1, ht]
      · right
        obtain ⟨m2, hb, am2, i2, hh2⟩ := balance_spec nk nv h am ar (by omega) (by omega)
        refine ⟨m2, w, l1, l2 ++ (nk, nv) :: inorder r, ?_, am2, ?_, ?_, ?_⟩
        · simp [removeNode, c1, hm, returnBalance_eq hb]
        · simp [inorder, e1]
        · simp [i2, e2]
        · simp only [height_node]; omega
    · by_cases c2 : strLess nk k = true
      · rcases ihr k with ⟨hw, ht⟩ | ⟨m, w, l1, l2, hm, am, e1, e2, hh⟩
        · left
          constructor
          · intro w hmem
            simp only [inorder, List.mem_append, List.mem_cons, Prod.mk.injEq] at hmem
            rcases hmem with hmem | ⟨rfl, -⟩ | hmem
            · have := strLess_asymm (hl _ hmem)
              simp [c2] at this
            · simp [strLess_irrefl] at c2
            · exact hw w hmem
          · simp [removeNode, c1, c2, ht]
        · right
          obtain ⟨m2, hb, am2, i2, hh2⟩ := balance_spec nk nv h al am (by omega) (by omega)
          refine ⟨m2, w, inorder l ++ (nk, nv) :: l1, l2, ?_, am2, ?_, ?_, ?_⟩
          · simp [removeNode, c1, c2, hm, returnBalance_eq hb]
          · simp [inorder, e1]
          · simp [i2, e2]
          · simp only [height_node]; omega
      · right
        have hk : k = nk := strLess_connex (by simpa using c1) (by simpa using c2)
        subst hk
        cases l with
        | nil =>
          refine ⟨r, nv, [], inorder r, ?_, ar, rfl, rfl, ?_⟩
          · simp [removeNode, strLess_irrefl, Node.isNull]
          · simp only [height_node, height_nil] at *; omega
        | node lk lv lh ll lr =>
          cases r with
          | nil =>
            refine ⟨.node lk lv lh ll lr, nv, inorder (.node lk lv lh ll lr), [], ?_, al,
              rfl, by simp, ?_⟩
            · simp [removeNode, strLess_irrefl, Node.isNull]
            · simp only [height_node, height_nil] at *; omega
          | node rk rv rh rl rr =>
            obtain ⟨sk, sv, sh, sr, rest, hmin, hrest⟩ := minValueNode_spec rk rv rh rl rr
            rcases ihr sk with ⟨hw, -⟩ | ⟨m, w, l1, l2, hm, am, e1, e2, hh⟩
            · exact absurd (by rw [hrest]; simp) (hw sv)
            · obtain ⟨rfl, rfl, rfl⟩ := sorted_head_unique (e1 ▸ hor) (e1.symm.trans hrest)
              obtain ⟨m2, hb, am2, i2, hh2⟩ :=
                balance_spec sk w h al am (by omega) (by omega)
              refine ⟨m2, nv, inorder (.node lk lv lh ll lr), (sk, w) :: l2, ?_, am2, ?_, ?_, ?_⟩
              · rw [removeNode_two_children k nv h (.node lk lv lh ll lr) (.node rk rv rh rl rr) rfl rfl]
                simp only [hmin, hm, returnBalance_eq hb]
              · rw [inorder, hrest]
              · simp [i2, e2]
              · simp only [height_node]; omega

/-! ## Lookup -/

theorem findNode_result : ∀ {n : Node} {k k2 : Key} {v : Nat} {h : Int} {l r : Node},
    findNode n k = .node k2 v h l r → k2 = k ∧ (k, v) ∈ inorder n
  | .nil, _, _, _, _, _, _, hf => by simp [findNode] at hf
  | .node nk nv nh nl nr, k, k2, v, h, l, r, hf => by
    rw [findNode] at hf
    split_ifs at hf with c1 c2
    · obtain ⟨e, hm⟩ := findNode_result hf
      exact ⟨e, by simp [inorder, hm]⟩
    · obtain ⟨e, hm⟩ := findNode_result hf
      exact ⟨e, by simp [inorder, hm]⟩
    · have hk : k = nk := strLess_connex (by simpa using c1) (by simpa using c2)
      simp only [Node.node.injEq] at hf
      obtain ⟨rfl, rfl, -⟩ := hf
      exact ⟨hk.symm, by simp [inorder, hk]⟩

theorem findNode_found : ∀ {n : Node} {k : Key} {v : Nat}, Ordered n → (k, v) ∈ inorder n →
    ∃ h l r, findNode n k = .node k v h l r
  | .nil, _, _, _, hm => by simp [inorder] at hm
  | .node nk nv nh nl nr, k, v, ho, hm => by
    obtain ⟨ol, hor, hl, hr⟩ := ordered_node.1 ho
    simp only [inorder, List.mem_append, List.mem_cons, Prod.mk.injEq] at hm
    rcases hm with hm | ⟨rfl, rfl⟩ | hm
    · have c1 := hl _ hm
      rw [findNode, if_pos c1]
      exact findNode_found ol hm
    · exact ⟨nh, nl, nr, by simp [findNode, strLess_irrefl]⟩
    · have c2 := hr _ hm
      have c1 : ¬ strLess k nk = true := by simp [strLess_asymm c2]
      rw [findNode, if_neg c1, if_pos c2]
      exact findNode_found hor hm

theorem find_eq_some_iff {n : Node} (ho : Ordered n) (key : Key) (v : Nat) :
    find n key = some v ↔ (toLower key, v) ∈ inorder n := by
  constructor
  · intro hf
    unfold find at hf
    cases hn : findNode n (toLower key) with
    | nil => simp [hn] at hf
    | node k2 v2 h l r =>
      simp only [hn, Option.some.injEq] at hf
      subst hf
      exact (findNode_result hn).2
  · intro hm
    obtain ⟨h, l, r, hf⟩ := findNode_found ho hm
    simp [find, hf]

theorem find_eq_none_iff {n : Node} (ho : Ordered n) (key : Key) :
    find n key = none ↔ toLower key ∉ keys n := by
  constructor
  · intro hf hk
    obtain ⟨⟨k, v⟩, hm, rfl⟩ := List.mem_map.1 hk
    rw [(find_eq_some_iff ho key v).2 hm] at hf
    cases hf
  · intro hk
    cases hf : find n key with
    | none => rfl
    | some v =>
      exact absurd (List.mem_map.2 ⟨_, (find_eq_some_iff ho key v).1 hf, rfl⟩) hk

theorem find_congr {n m : Node} (hn : Ordered n) (hm : Ordered m) (key : Key)
    (h : ∀ v, (toLower key, v) ∈ inorder n ↔ (toLower key, v) ∈ inorder m) :
    find n key = find m key := by
  apply Option.ext
  intro v
  rw [Option.mem_def, Option.mem_def, find_eq_some_iff hn, find_eq_some_iff hm]
  exact h v

theorem size_eq_length : ∀ n : Node, size n = (inorder n).length
  | .nil => rfl
  | .node _ _ _ l r => by
    simp only [size, inorder, List.length_append, List.length_cons, size_eq_length l,
      size_eq_length r]
    omega

theorem sorted_keys_nodup {es : List (Key × Nat)} (h : Sorted es) : (es.map Prod.fst).Nodup := by
  unfold Sorted at h
  rw [List.Nodup, List.pairwise_map]
  exact h.imp fun hab => strLess_ne hab

theorem ordered_ascending {n : Node} (h : Ordered n) : Ascending (keys n) := by
  rw [ascending_iff_pairwise, keys, List.pairwise_map]
  exact h

theorem ascending_ordered {n : Node} (h : Ascending (keys n)) : Ordered n := by
  rw [ascending_iff_pairwise, keys, List.pairwise_map] at h
  exact h

theorem avl_balanced : ∀ {n : Node}, Avl n → Balanced n
  | .nil, _ => trivial
  | .node _ _ _ l r, ⟨_, b1, b2, al, ar⟩ => by
    rw [avl_height_eq al, avl_height_eq ar] at b1 b2
    exact ⟨by omega, by omega, avl_balanced al, avl_balanced ar⟩

theorem avl_heightsExact : ∀ {n : Node}, Avl n → HeightsExact n
  | .nil, _ => trivial
  | .node _ _ _ l r, ⟨e, _, _, al, ar⟩ => by
    rw [avl_height_eq al, avl_height_eq ar] at e
    refine ⟨?_, avl_heightsExact al, avl_heightsExact ar⟩
    rw [e]; push_cast; rfl

/-! ## The operations on a tree that satisfies the invariant -/

theorem mem_keys_iff {n : Node} {k : Key} : k ∈ keys n ↔ ∃ w, (k, w) ∈ inorder n := by
  simp [keys]

theorem inv_nil : Inv .nil := ⟨trivial, List.Pairwise.nil⟩

theorem insertNode_cases (k : Key) (v : Nat) {n : Node} (hn : Inv n) :
    (k ∈ keys n ∧ insertNode n k v = .thrown .exist n) ∨
    (k ∉ keys n ∧ ∃ m l1 l2, insertNode n k v = .ok m ∧ Inv m ∧
      inorder n = l1 ++ l2 ∧ inorder m = l1 ++ (k, v) :: l2) := by
  rcases insertNode_spec k v n hn.1 hn.2 with ⟨hw, ht⟩ | ⟨m, l1, l2, hm, am, e1, e2, p1, p2, -⟩
  · exact Or.inl ⟨mem_keys_iff.2 hw, ht⟩
  · right
    have hs : Sorted (l1 ++ l2) := e1 ▸ hn.2
    have hs1 : Sorted l1 := (List.pairwise_append.1 hs).1
    have hs2 : Sorted l2 := (List.pairwise_append.1 hs).2.1
    refine ⟨?_, m, l1, l2, hm, ⟨am, ?_⟩, e1, e2⟩
    · intro hk
      obtain ⟨w, hw⟩ := mem_keys_iff.1 hk
      rw [e1] at hw
      rcases List.mem_append.1 hw with hw | hw
      · exact strLess_ne (p1 _ hw) rfl
      · exact strLess_ne (p2 _ hw) rfl
    · show Sorted (inorder m)
      rw [e2]
      exact sorted_append_cons.2 ⟨hs1, hs2, p1, p2⟩

theorem removeNode_cases (k : Key) {n : Node} (hn : Inv n) :
    (k ∉ keys n ∧ removeNode n k = .thrown .noSuchWord n) ∨
    (k ∈ keys n ∧ ∃ m w l1 l2, removeNode n k = .ok m ∧ Inv m ∧
      inorder n = l1 ++ (k, w) :: l2 ∧ inorder m = l1 ++ l2) := by
  rcases removeNode_spec n k hn.1 hn.2 with ⟨hw, ht⟩ | ⟨m, w, l1, l2, hm, am, e1, e2, -⟩
  · refine Or.inl ⟨fun hk => ?_, ht⟩
    obtain ⟨w, hw2⟩ := mem_keys_iff.1 hk
    exact hw w hw2
  · right
    have hs : Sorted (l1 ++ (k, w) :: l2) := e1 ▸ hn.2
    obtain ⟨hs1, hs2, p1, p2⟩ := sorted_append_cons.1 hs
    refine ⟨mem_keys_iff.2 ⟨w, by rw [e1]; simp⟩, m, w, l1, l2, hm, ⟨am, ?_⟩, e1, e2⟩
    show Sorted (inorder m)
    rw [e2]
    exact List.pairwise_append.2 ⟨hs1, hs2, fun a ha b hb => strLess_trans (p1 a ha) (p2 b hb)⟩

theorem insert_inv {root : Node} (hn : Inv root) (key : Key) (value : Nat) :
    ∃ r b, insert root key value = some (r, b) ∧ Inv r := by
  rcases insertNode_cases (toLower key) value hn with ⟨-, ht⟩ | ⟨-, m, l1, l2, hm, im, -⟩
  · exact ⟨root, false, by simp [insert, ht], hn⟩
  · exact ⟨m, true, by simp [insert, hm], im⟩

theorem remove_inv {root : Node} (hn : Inv root) (key : Key) :
    ∃ r b, remove root key = some (r, b) ∧ Inv r := by
  rcases removeNode_cases (toLower key) hn with ⟨-, ht⟩ | ⟨-, m, w, l1, l2, hm, im, -⟩
  · exact ⟨root, false, by simp [remove, ht], hn⟩
  · exact ⟨m, true, by simp [remove, hm], im⟩

theorem loadLoop_inv {root : Node} (hn : Inv root) : ∀ (todo : Nat) (s : List Nat) {tmp : Node},
    Inv tmp → ∃ r, Inv r ∧ (loadLoop root todo s tmp = .ok r ∨
      loadLoop root todo s tmp = .invalidFormat r ∨ loadLoop root todo s tmp = .logicError r)
  | 0, _, tmp, ht => ⟨tmp, ht, Or.inl rfl⟩
  | todo + 1, s, tmp, ht => by
    rw [loadLoop]
    cases h1 : streamRead 2 s with
    | none => exact ⟨root, hn, Or.inr (Or.inl rfl)⟩
    | some p1 =>
      obtain ⟨lenBytes, s1⟩ := p1
      simp only
      cases h2 : streamRead (readLE lenBytes) s1 with
      | none => exact ⟨root, hn, Or.inr (Or.inl rfl)⟩
      | some p2 =>
        obtain ⟨key, s2⟩ := p2
        simp only
        cases h3 : streamRead 8 s2 with
        | none => exact ⟨root, hn, Or.inr (Or.inl rfl)⟩
        | some p3 =>
          obtain ⟨valBytes, s3⟩ := p3
          simp only
          rcases insertNode_cases key (readLE valBytes) ht with
            ⟨-, hth⟩ | ⟨-, m, l1, l2, hm, im, -⟩
          · rw [hth]
            exact ⟨root, hn, Or.inr (Or.inr rfl)⟩
          · rw [hm]
            exact loadLoop_inv hn todo s3 im

theorem load_inv {root : Node} (hn : Inv root) (file : List Nat) :
    ∃ r, Inv r ∧ (load root file = .ok r ∨
      load root file = .invalidFormat r ∨ load root file = .logicError r) := by
  rw [load]
  cases h1 : streamRead 8 file with
  | none => exact ⟨root, hn, Or.inr (Or.inl rfl)⟩
  | some p => exact loadLoop_inv hn (readLE p.1) p.2 inv_nil

theorem applyCall_inv {root : Node} (hn : Inv root) (c : Call) :
    ∃ r, applyCall root c = some r ∧ Inv r := by
  cases c with
  | insert key value =>
    obtain ⟨r, b, h, hr⟩ := insert_inv hn key value
    exact ⟨r, by simp [applyCall, h], hr⟩
  | remove key =>
    obtain ⟨r, b, h, hr⟩ := remove_inv hn key
    exact ⟨r, by simp [applyCall, h], hr⟩
  | load file =>
    obtain ⟨r, hr, h | h | h⟩ := load_inv hn file
    all_goals exact ⟨r, by simp only [applyCall, h], hr⟩

theorem runCalls_inv : ∀ (calls : List Call) {root : Node}, Inv root →
    ∃ r, runCalls root calls = some r ∧ Inv r
  | [], root, hn => ⟨root, rfl, hn⟩
  | c :: cs, root, hn => by
    obtain ⟨r, h, hr⟩ := applyCall_inv hn c
    obtain ⟨r2, h2, hr2⟩ := runCalls_inv cs hr
    exact ⟨r2, by simp [runCalls, h, h2], hr2⟩

theorem reachable_inv {calls : List Call} {root : Node}
    (h : runCalls .nil calls = some root) : Inv root := by
  obtain ⟨r, h2, hr⟩ := runCalls_inv calls inv_nil
  rw [h] at h2
  cases h2
  exact hr

/-! ## The claims -/

/-- C1: starting from the empty tree, every finite sequence of `insert`, `remove` and
`load` calls (each succeeding or failing) runs without a null dereference and leaves a
tree whose in-order keys are strictly ascending in the byte-wise lexicographic order;
in particular no key occurs twice. -/
theorem inorder_ascending_after_calls (calls : List Call) :
    ∃ root, runCalls .nil calls = some root ∧ Ascending (keys root) ∧ (keys root).Nodup := by
  obtain ⟨root, h, hinv⟩ := runCalls_inv calls inv_nil
  exact ⟨root, h, ordered_ascending hinv.2, sorted_keys_nodup hinv.2⟩

/-- C2: starting from the empty tree, every finite sequence of `insert`, `remove` and
`load` calls leaves a tree in which the true heights of the two subtrees of every node
differ by at most one. -/
theorem balanced_after_calls (calls : List Call) :
    ∃ root, runCalls .nil calls = some root ∧ Balanced root := by
  obtain ⟨root, h, hinv⟩ := runCalls_inv calls inv_nil
  exact ⟨root, h, avl_balanced hinv.1⟩

/-- C3: on a tree whose in-order keys are strictly ascending, `find(k)` returns found
with value `v` exactly when the tree holds the entry `(toLower k, v)`, and returns
not-found exactly when no node has the key `toLower k`.  (`find` is a function of the
tree alone and has no tree to return: it cannot change it.) -/
theorem find_iff_contains (root : Node) (hasc : Ascending (keys root)) (k : Key) :
    (∀ v, find root k = some v ↔ (toLower k, v) ∈ inorder root) ∧
      (find root k = none ↔ toLower k ∉ keys root) :=
  ⟨fun v => find_eq_some_iff (ascending_ordered hasc) k v,
    find_eq_none_iff (ascending_ordered hasc) k⟩

theorem find_iff_contains_witness :
    Ascending (keys (.node [98] 1 2 (.node [97] 2 1 .nil .nil) .nil)) ∧
      ((∀ v, find (.node [98] 1 2 (.node [97] 2 1 .nil .nil) .nil) [65] = some v ↔
          (toLower [65], v) ∈ inorder (.node [98] 1 2 (.node [97] 2 1 .nil .nil) .nil)) ∧
        (find (.node [98] 1 2 (.node [97] 2 1 .nil .nil) .nil) [65] = none ↔
          toLower [65] ∉ keys (.node [98] 1 2 (.node [97] 2 1 .nil .nil) .nil))) :=
  ⟨by decide, find_iff_contains _ (by decide) [65]⟩

/-- C4: on a tree reached from the empty tree by `insert` / `remove` calls, inserting a
key whose lower-cased form is absent succeeds; afterwards `find` of that key returns the
inserted value, `find` of every key with another lower-cased form returns what it
returned before, and the number of nodes has grown by exactly one. -/
theorem insert_absent_key (calls : List Call) (_hupd : ∀ c ∈ calls, c.isUpdate = true)
    (root : Node) (hreach : runCalls .nil calls = some root) (k : Key) (v : Nat)
    (habs : toLower k ∉ keys root) :
    ∃ root2, insert root k v = some (root2, true) ∧ find root2 k = some v ∧
      (∀ k2, toLower k2 ≠ toLower k → find root2 k2 = find root k2) ∧
      size root2 = size root + 1 := by
  have hinv := reachable_inv hreach
  rcases insertNode_cases (toLower k) v hinv with ⟨hk, -⟩ | ⟨-, m, l1, l2, hm, im, e1, e2⟩
  · exact absurd hk habs
  · refine ⟨m, by simp [insert, hm], ?_, ?_, ?_⟩
    · rw [find_eq_some_iff im.2, e2]; simp
    · intro k2 hne
      apply find_congr im.2 hinv.2
      intro w
      rw [e1, e2]
      simp [hne]
    · rw [size_eq_length, size_eq_length, e1, e2]
      simp only [List.length_append, List.length_cons]
      omega

theorem insert_absent_key_witness :
    ∃ root2, insert (.node [98] 1 2 (.node [97] 2 1 .nil .nil) .nil) [67] 3 =
        some (root2, true) ∧ find root2 [67] = some 3 ∧
      (∀ k2, toLower k2 ≠ toLower [67] →
        find root2 k2 = find (.node [98] 1 2 (.node [97] 2 1 .nil .nil) .nil) k2) ∧
      size root2 = size (.node [98] 1 2 (.node [97] 2 1 .nil .nil) .nil) + 1 :=
  insert_absent_key [.insert [66] 1, .insert [65] 2, .remove [122]] (by decide)
    (.node [98] 1 2 (.node [97] 2 1 .nil .nil) .nil) (by decide) [67] 3 (by decide)

/-- C5: on a tree reached from the empty tree by `insert` / `remove` calls, `insert(k, v)`
reports failure exactly when a node with the key `toLower k` is present, and then the
tree is left as it was (same shape, keys, values and cached heights), so that `find(k)`
still returns the value stored before. -/
theorem insert_fails_iff_present (calls : List Call) (_hupd : ∀ c ∈ calls, c.isUpdate = true)
    (root : Node) (hreach : runCalls .nil calls = some root) (k : Key) (v : Nat) :
    ∃ root2 ok, insert root k v = some (root2, ok) ∧
      (ok = false ↔ toLower k ∈ keys root) ∧
      (ok = false → root2 = root ∧
        ∃ w, (toLower k, w) ∈ inorder root ∧ find root2 k = some w) := by
  have hinv := reachable_inv hreach
  rcases insertNode_cases (toLower k) v hinv with ⟨hk, ht⟩ | ⟨hk, m, l1, l2, hm, im, e1, e2⟩
  · refine ⟨root, false, by simp [insert, ht], by simp [hk], fun _ => ⟨rfl, ?_⟩⟩
    obtain ⟨w, hw⟩ := mem_keys_iff.1 hk
    exact ⟨w, hw, (find_eq_some_iff hinv.2 k w).2 hw⟩
  · exact ⟨m, true, by simp [insert, hm], by simp [hk], by simp⟩

theorem insert_fails_iff_present_witness :
    ∃ root2 ok, insert (.node [98] 1 2 (.node [97] 2 1 .nil .nil) .nil) [65] 9 =
        some (root2, ok) ∧
      (ok = false ↔ toLower [65] ∈ keys (.node [98] 1 2 (.node [97] 2 1 .nil .nil) .nil)) ∧
      (ok = false → root2 = .node [98] 1 2 (.node [97] 2 1 .nil .nil) .nil ∧
        ∃ w, (toLower [65], w) ∈ inorder (.node [98] 1 2 (.node [97] 2 1 .nil .nil) .nil) ∧
          find root2 [65] = some w) :=
  insert_fails_iff_present [.insert [66] 1, .insert [65] 2, .remove [122]] (by decide)
    (.node [98] 1 2 (.node [97] 2 1 .nil .nil) .nil) (by decide) [65] 9

/-- C6: on a tree reached from the empty tree by `insert` / `remove` calls, removing a
key whose lower-cased form is present succeeds; afterwards `find` of that key returns
not-found, `find` of every key with another lower-cased form returns what it returned
before (also when the removed node had two children and received the key and value
of its successor), and the number of nodes has shrunk by exactly one. -/
theorem remove_present_key (calls : List Call) (_hupd : ∀ c ∈ calls, c.isUpdate = true)
    (root : Node) (hreach : runCalls .nil calls = some root) (k : Key)
    (hpres : toLower k ∈ keys root) :
    ∃ root2, remove root k = some (root2, true) ∧ find root2 k = none ∧
      (∀ k2, toLower k2 ≠ toLower k → find root2 k2 = find root k2) ∧
      size root2 + 1 = size root := by
  have hinv := reachable_inv hreach
  rcases removeNode_cases (toLower k) hinv with ⟨hk, -⟩ | ⟨-, m, w, l1, l2, hm, im, e1, e2⟩
  · exact absurd hpres hk
  · have hs : Sorted (l1 ++ (toLower k, w) :: l2) := e1 ▸ hinv.2
    obtain ⟨-, -, p1, p2⟩ := sorted_append_cons.1 hs
    refine ⟨m, by simp [remove, hm], ?_, ?_, ?_⟩
    · rw [find_eq_none_iff im.2]
      intro hk
      obtain ⟨x, hx⟩ := mem_keys_iff.1 hk
      rw [e2] at hx
      rcases List.mem_append.1 hx with hx | hx
      · exact strLess_ne (p1 _ hx) rfl
      · exact strLess_ne (p2 _ hx) rfl
    · intro k2 hne
      apply find_congr im.2 hinv.2
      intro x
      rw [e1, e2]
      simp [hne]
    · rw [size_eq_length, size_eq_length, e1, e2]
      simp only [List.length_append, List.length_cons]
      omega

theorem remove_present_key_witness :
    ∃ root2, remove (.node [98] 1 2 (.node [97] 2 1 .nil .nil) (.node [99] 3 1 .nil .nil))
        [66] = some (root2, true) ∧ find root2 [66] = none ∧
      (∀ k2, toLower k2 ≠ toLower [66] → find root2 k2 =
        find (.node [98] 1 2 (.node [97] 2 1 .nil .nil) (.node [99] 3 1 .nil .nil)) k2) ∧
      size root2 + 1 =
        size (.node [98] 1 2 (.node [97] 2 1 .nil .nil) (.node [99] 3 1 .nil .nil)) :=
  remove_present_key [.insert [66] 1, .insert [65] 2, .insert [67] 3] (by decide)
    (.node [98] 1 2 (.node [97] 2 1 .nil .nil) (.node [99] 3 1 .nil .nil)) (by decide) [66]
    (by decide)

/-- C7: on a tree reached from the empty tree by `insert` / `remove` calls, `remove(k)`
reports failure exactly when no node has the key `toLower k`, and then the tree is left
as it was (same shape, keys, values and cached heights); in particular `remove` on the
empty tree reports failure. -/
theorem remove_fails_iff_absent (calls : List Call) (_hupd : ∀ c ∈ calls, c.isUpdate = true)
    (root : Node) (hreach : runCalls .nil calls = some root) (k : Key) :
    (∃ root2 ok, remove root k = some (root2, ok) ∧
      (ok = false ↔ toLower k ∉ keys root) ∧ (ok = false → root2 = root)) ∧
    remove .nil k = some (.nil, false) := by
  have hinv := reachable_inv hreach
  refine ⟨?_, rfl⟩
  rcases removeNode_cases (toLower k) hinv with ⟨hk, ht⟩ | ⟨hk, m, w, l1, l2, hm, im, e1, e2⟩
  · exact ⟨root, false, by simp [remove, ht], by simp [hk], fun _ => rfl⟩
  · exact ⟨m, true, by simp [remove, hm], by simp [hk], by simp⟩

theorem remove_fails_iff_absent_witness :
    (∃ root2 ok, remove (.node [98] 1 2 (.node [97] 2 1 .nil .nil) .nil) [90] =
        some (root2, ok) ∧
      (ok = false ↔ toLower [90] ∉ keys (.node [98] 1 2 (.node [97] 2 1 .nil .nil) .nil)) ∧
      (ok = false → root2 = .node [98] 1 2 (.node [97] 2 1 .nil .nil) .nil)) ∧
    remove .nil [90] = some (.nil, false) :=
  remove_fails_iff_absent [.insert [66] 1, .insert [65] 2, .remove [122]] (by decide)
    (.node [98] 1 2 (.node [97] 2 1 .nil .nil) .nil) (by decide) [90]

/-! ## Loading -/

/-- An entry of the file format is incomplete exactly when the data ends inside the
2-byte length, or inside the key bytes and the 8-byte value that the length announces. -/
theorem decodeEntry_eq_none_iff (s : List Nat) :
    decodeEntry s = none ↔
      s.length < 2 ∨ s.length < 2 + readLE (s.take 2) + 8 := by
  unfold decodeEntry streamRead
  by_cases h1 : 2 ≤ s.length
  · simp only [if_pos h1]
    by_cases h2 : readLE (s.take 2) ≤ (s.drop 2).length
    · simp only [if_pos h2]
      by_cases h3 : 8 ≤ ((s.drop 2).drop (readLE (s.take 2))).length
      · simp only [if_pos h3]
        simp only [List.length_drop] at h2 h3
        simp only [reduceCtorEq, false_iff]
        omega
      · simp only [if_neg h3]
        simp only [List.length_drop] at h2 h3
        simp only [true_iff]
        omega
    · simp only [if_neg h2]
      simp only [List.length_drop] at h2
      simp only [true_iff]
      omega
  · simp only [if_neg h1]
    simp only [true_iff]
    omega

theorem loadLoop_step (root : Node) (todo : Nat) (s : List Nat) (tmp : Node) :
    loadLoop root (todo + 1) s tmp =
      match decodeEntry s with
      | none => .invalidFormat root
      | some (e, s1) =>
        match insertNode tmp e.1 e.2 with
        | .ok tmp1 => loadLoop root todo s1 tmp1
        | .thrown _ _ => .logicError root
        | .undefined => .undefined := by
  rw [loadLoop, decodeEntry]
  cases streamRead 2 s with
  | none => rfl
  | some p1 =>
    obtain ⟨lenBytes, s1⟩ := p1
    simp only
    cases streamRead (readLE lenBytes) s1 with
    | none => rfl
    | some p2 =>
      obtain ⟨key, s2⟩ := p2
      simp only
      cases streamRead 8 s2 with
      | none => rfl
      | some p3 => rfl

/-- The loop of `load` against the file format: when the declared entries are all there
with keys that are pairwise distinct and new to `tmp`, the loop ends normally with a
tree holding the entries of `tmp` and the decoded ones; when the data ends early (the
keys decoded before being distinct and new), the loop ends with the format error. -/
theorem loadLoop_decode (root : Node) : ∀ (todo : Nat) (s : List Nat) (tmp : Node)
    (es : List (Key × Nat)), Inv tmp → (es.map Prod.fst).Nodup →
    (∀ e ∈ es, e.1 ∉ keys tmp) →
    (decodeEntries todo s = .complete es →
      ∃ r, loadLoop root todo s tmp = .ok r ∧ Inv r ∧ (inorder r).Perm (inorder tmp ++ es)) ∧
    (decodeEntries todo s = .truncated es → loadLoop root todo s tmp = .invalidFormat root)
  | 0, s, tmp, es, ht, _, _ => by
    constructor
    · intro hd
      simp only [decodeEntries, Decoded.complete.injEq] at hd
      subst hd
      exact ⟨tmp, rfl, ht, by simp⟩
    · intro hd
      simp [decodeEntries] at hd
  | todo + 1, s, tmp, es, ht, hnd, hnew => by
    rw [loadLoop_step, decodeEntries]
    cases h1 : decodeEntry s with
    | none =>
      constructor
      · intro hd; simp at hd
      · intro _; rfl
    | some p =>
      obtain ⟨e, s1⟩ := p
      simp only
      have key : ∀ es1, es = e :: es1 →
          ∃ m, insertNode tmp e.1 e.2 = .ok m ∧ Inv m ∧
            (inorder m).Perm (e :: inorder tmp) ∧ (es1.map Prod.fst).Nodup ∧
            (∀ x ∈ es1, x.1 ∉ keys m) := by
        intro es1 hes
        subst hes
        have hnd2 : e.1 ∉ es1.map Prod.fst ∧ (es1.map Prod.fst).Nodup :=
          List.nodup_cons.1 (by rw [List.map_cons] at hnd; exact hnd)
        rcases insertNode_cases e.1 e.2 ht with ⟨hk, -⟩ | ⟨-, m, l1, l2, hm, im, e1, e2⟩
        · exact absurd hk (hnew e (List.mem_cons_self _ _))
        · refine ⟨m, hm, im, ?_, hnd2.2, ?_⟩
          · rw [e1, e2]
            exact List.perm_middle
          · intro x hx hxm
            obtain ⟨w, hw⟩ := mem_keys_iff.1 hxm
            rw [e2] at hw
            have hxt : x.1 ∉ keys tmp := hnew x (List.mem_cons_of_mem _ hx)
            rw [mem_keys_iff, e1] at hxt
            simp only [List.mem_append, List.mem_cons, Prod.mk.injEq] at hw
            rcases hw with hw | ⟨hw, -⟩ | hw
            · exact hxt ⟨w, List.mem_append_left _ hw⟩
            · exact hnd2.1 (hw ▸ List.mem_map_of_mem Prod.fst hx)
            · exact hxt ⟨w, List.mem_append_right _ hw⟩
      cases h2 : decodeEntries todo s1 with
      | complete es1 =>
        constructor
        · intro hd
          simp only [Decoded.complete.injEq] at hd
          obtain ⟨m, hm, im, pm, hnd1, hnew1⟩ := key es1 hd.symm
          obtain ⟨r, hr, ir, pr⟩ := (loadLoop_decode root todo s1 m es1 im hnd1 hnew1).1 h2
          refine ⟨r, by rw [hm]; exact hr, ir, ?_⟩
          rw [← hd]
          exact pr.trans ((pm.append_right es1).trans List.perm_middle.symm)
        · intro hd; simp at hd
      | truncated es1 =>
        constructor
        · intro hd; simp at hd
        · intro hd
          simp only [Decoded.truncated.injEq] at hd
          obtain ⟨m, hm, im, pm, hnd1, hnew1⟩ := key es1 hd.symm
          rw [hm]
          exact (loadLoop_decode root todo s1 m es1 im hnd1 hnew1).2 h2

/-! ## Saving -/

theorem writeLE_length (w x : Nat) : (writeLE w x).length = w := by
  simp [writeLE]

theorem readLE_writeLE_two (x : Nat) (hx : x < 2 ^ 16) : readLE (writeLE 2 x) = x := by
  simp [writeLE, readLE, List.range_succ]
  omega

theorem readLE_writeLE_eight (x : Nat) (hx : x < 2 ^ 64) : readLE (writeLE 8 x) = x := by
  simp [writeLE, readLE, List.range_succ]
  omega

theorem streamRead_append (a b : List Nat) : streamRead a.length (a ++ b) = some (a, b) := by
  simp [streamRead]

theorem decodeEntry_encodeEntry (e : Key × Nat) (rest : List Nat)
    (hk : e.1.length < 2 ^ 16) (hv : e.2 < 2 ^ 64) :
    decodeEntry (encodeEntry e ++ rest) = some (e, rest) := by
  have hlen : e.1.length % 2 ^ 16 = e.1.length := Nat.mod_eq_of_lt hk
  have h1 := streamRead_append (writeLE 2 e.1.length) (e.1 ++ (writeLE 8 e.2 ++ rest))
  have h2 := streamRead_append e.1 (writeLE 8 e.2 ++ rest)
  have h3 := streamRead_append (writeLE 8 e.2) rest
  rw [writeLE_length] at h1 h3
  rw [decodeEntry, encodeEntry, hlen, List.take_length, List.append_assoc, List.append_assoc,
    h1]
  simp only [readLE_writeLE_two _ hk, h2, h3, readLE_writeLE_eight _ hv]

theorem decodeEntries_encodeEntries : ∀ (es : List (Key × Nat)) (rest : List Nat),
    (∀ e ∈ es, e.1.length < 2 ^ 16 ∧ e.2 < 2 ^ 64) →
    decodeEntries es.length (encodeEntries es ++ rest) = .complete es
  | [], _, _ => rfl
  | e :: es, rest, h => by
    have he := h e (List.mem_cons_self _ _)
    rw [List.length_cons, decodeEntries, encodeEntries, List.append_assoc,
      decodeEntry_encodeEntry e _ he.1 he.2]
    simp only
    rw [decodeEntries_encodeEntries es rest fun x hx => h x (List.mem_cons_of_mem _ hx)]

theorem encodeEntries_append : ∀ (a b : List (Key × Nat)),
    encodeEntries (a ++ b) = encodeEntries a ++ encodeEntries b
  | [], _ => rfl
  | e :: es, b => by
    rw [List.cons_append, encodeEntries, encodeEntries, encodeEntries_append es b,
      List.append_assoc]

theorem inorderSave_eq : ∀ (n : Node) (out : List Nat),
    inorderSave n out = out ++ encodeEntries (inorder n)
  | .nil, out => by simp [inorderSave, inorder, encodeEntries]
  | .node k v _ l r, out => by
    simp only [inorderSave, inorder, inorderSave_eq l, inorderSave_eq r, encodeEntries_append,
      encodeEntries, encodeEntry, List.append_assoc]

theorem countNodes_eq_size : ∀ n : Node, size n < 2 ^ 64 → countNodes n = size n
  | .nil, _ => rfl
  | .node _ _ _ l r, h => by
    simp only [size] at h
    rw [countNodes, countNodes_eq_size l (by omega), countNodes_eq_size r (by omega), size]
    exact Nat.mod_eq_of_lt h

theorem decodeFile_save (root : Node) (hsize : size root < 2 ^ 64)
    (hwf : ∀ e ∈ inorder root, e.1.length < 2 ^ 16 ∧ e.2 < 2 ^ 64) :
    decodeFile (save root) = .complete (inorder root) := by
  have h1 := streamRead_append (writeLE 8 (size root)) (encodeEntries (inorder root))
  rw [writeLE_length] at h1
  rw [decodeFile, save, inorderSave_eq, countNodes_eq_size root hsize, h1]
  simp only [readLE_writeLE_eight _ hsize]
  have := decodeEntries_encodeEntries (inorder root) [] hwf
  rw [List.append_nil, ← size_eq_length] at this
  exact this

theorem load_of_complete (root : Node) (file : List Nat) (es : List (Key × Nat))
    (hdec : decodeFile file = .complete es) (hdist : (es.map Prod.fst).Nodup) :
    ∃ r, load root file = .ok r ∧ Inv r ∧ (inorder r).Perm es := by
  rw [decodeFile] at hdec
  rw [load]
  cases h1 : streamRead 8 file with
  | none => rw [h1] at hdec; simp at hdec
  | some p =>
    rw [h1] at hdec
    obtain ⟨r, hr, ir, pr⟩ :=
      (loadLoop_decode root (readLE p.1) p.2 .nil es inv_nil hdist (by simp [keys, inorder])).1
        hdec
    exact ⟨r, hr, ir, by simpa [inorder] using pr⟩

/-- C8: round trip.  For a tree built from the empty tree by `insert` / `remove` calls
whose keys are at most 65535 bytes long (the values being 64-bit and the number of nodes
fitting the 64-bit count, as the C++ types make them), loading the bytes written by
`save` into an empty tree succeeds, and in the loaded tree `find` returns for every key
what it returns in the saved tree and the number of nodes is the same. -/
theorem save_load_round_trip (calls : List Call) (_hupd : ∀ c ∈ calls, c.isUpdate = true)
    (root : Node) (hreach : runCalls .nil calls = some root)
    (hlen : ∀ k ∈ keys root, k.length ≤ 65535)
    (hval : ∀ e ∈ inorder root, e.2 < 2 ^ 64) (hsize : size root < 2 ^ 64) :
    ∃ root2, load .nil (save root) = .ok root2 ∧
      (∀ k, find root2 k = find root k) ∧ size root2 = size root := by
  have hinv := reachable_inv hreach
  have hwf : ∀ e ∈ inorder root, e.1.length < 2 ^ 16 ∧ e.2 < 2 ^ 64 := by
    intro e he
    have := hlen e.1 (List.mem_map_of_mem Prod.fst he)
    exact ⟨by omega, hval e he⟩
  obtain ⟨r, hr, ir, pr⟩ := load_of_complete .nil (save root) (inorder root)
    (decodeFile_save root hsize hwf) (sorted_keys_nodup hinv.2)
  refine ⟨r, hr, fun k => find_congr ir.2 hinv.2 k fun v => pr.mem_iff, ?_⟩
  rw [size_eq_length, size_eq_length, pr.length_eq]

theorem save_load_round_trip_witness :
    ∃ root2, load .nil (save (.node [98] 1 2 (.node [97] 2 1 .nil .nil) .nil)) = .ok root2 ∧
      (∀ k, find root2 k = find (.node [98] 1 2 (.node [97] 2 1 .nil .nil) .nil) k) ∧
      size root2 = size (.node [98] 1 2 (.node [97] 2 1 .nil .nil) .nil) :=
  save_load_round_trip [.insert [66] 1, .insert [65] 2] (by decide)
    (.node [98] 1 2 (.node [97] 2 1 .nil .nil) .nil) (by decide) (by decide) (by decide)
    (by decide)

/-- C9: for every live tree and every file whose data ends before the 8-byte count or
before one of the declared entries (2-byte length, key bytes, 8-byte value) is complete,
the keys decoded before that point being pairwise distinct, `load` reports the format
error and leaves the live tree exactly as it was. -/
theorem load_truncated_file (root : Node) (file : List Nat) (es : List (Key × Nat))
    (htrunc : decodeFile file = .truncated es) (hdist : (es.map Prod.fst).Nodup) :
    load root file = .invalidFormat root := by
  rw [decodeFile] at htrunc
  rw [load]
  cases h1 : streamRead 8 file with
  | none => rfl
  | some p =>
    rw [h1] at htrunc
    exact (loadLoop_decode root (readLE p.1) p.2 .nil es inv_nil hdist
      (by simp [keys, inorder])).2 htrunc

theorem load_truncated_file_witness :
    load (.node [98] 1 1 .nil .nil)
        [2, 0, 0, 0, 0, 0, 0, 0, 1, 0, 97, 5, 0, 0, 0, 0, 0, 0, 0, 1, 0] =
      .invalidFormat (.node [98] 1 1 .nil .nil) :=
  load_truncated_file (.node [98] 1 1 .nil .nil)
    [2, 0, 0, 0, 0, 0, 0, 0, 1, 0, 97, 5, 0, 0, 0, 0, 0, 0, 0, 1, 0] [([97], 5)]
    (by decide) (by decide)

/-- C10: for every live tree and every file that holds a count followed by that many
complete entries with pairwise distinct keys, `load` succeeds and the in-order contents
of the new tree are exactly the decoded entries, in ascending key order, nothing of the
previous contents remaining; in particular the 8-byte file with count 0 gives the empty
tree. -/
theorem load_complete_file (root : Node) (file : List Nat) (es : List (Key × Nat))
    (hdec : decodeFile file = .complete es) (hdist : (es.map Prod.fst).Nodup) :
    (∃ root2, load root file = .ok root2 ∧ (inorder root2).Perm es ∧
      Ascending (keys root2)) ∧
    load root [0, 0, 0, 0, 0, 0, 0, 0] = .ok .nil := by
  obtain ⟨r, hr, ir, pr⟩ := load_of_complete root file es hdec hdist
  exact ⟨⟨r, hr, pr, ordered_ascending ir.2⟩, rfl⟩

theorem load_complete_file_witness :
    (∃ root2, load (.node [98] 1 1 .nil .nil)
        [2, 0, 0, 0, 0, 0, 0, 0, 1, 0, 99, 5, 0, 0, 0, 0, 0, 0, 0,
          1, 0, 97, 6, 0, 0, 0, 0, 0, 0, 0] = .ok root2 ∧
      (inorder root2).Perm [([99], 5), ([97], 6)] ∧ Ascending (keys root2)) ∧
    load (.node [98] 1 1 .nil .nil) [0, 0, 0, 0, 0, 0, 0, 0] = .ok .nil :=
  load_complete_file (.node [98] 1 1 .nil .nil)
    [2, 0, 0, 0, 0, 0, 0, 0, 1, 0, 99, 5, 0, 0, 0, 0, 0, 0, 0,
      1, 0, 97, 6, 0, 0, 0, 0, 0, 0, 0] [([99], 5), ([97], 6)] (by decide) (by decide)

/-! ## The bytes written by `save` -/

theorem writeLE_eight_mod (x : Nat) : writeLE 8 (x % 2 ^ 64) = writeLE 8 x := by
  simp only [writeLE, List.range_succ, List.range_zero, List.nil_append, List.cons_append,
    List.map_cons, List.map_nil]
  norm_num
  omega

theorem countNodes_eq_size_mod : ∀ n : Node, countNodes n = size n % 2 ^ 64
  | .nil => rfl
  | .node _ _ _ l r => by
    rw [countNodes, countNodes_eq_size_mod l, countNodes_eq_size_mod r, size]
    omega

theorem save_eq (root : Node) :
    save root = writeLE 8 (size root) ++ encodeEntries (inorder root) := by
  rw [save, inorderSave_eq, countNodes_eq_size_mod, writeLE_eight_mod]

theorem encodeEntries_eq_format : ∀ es : List (Key × Nat),
    (∀ e ∈ es, e.1.length ≤ 65535) → encodeEntries es = formatEntries es
  | [], _ => rfl
  | e :: es, h => by
    have he : e.1.length % 2 ^ 16 = e.1.length :=
      Nat.mod_eq_of_lt (by have := h e (List.mem_cons_self _ _); omega)
    rw [encodeEntries, formatEntries, encodeEntry, formatEntry, he, List.take_length,
      encodeEntries_eq_format es fun x hx => h x (List.mem_cons_of_mem _ hx)]

theorem sorted_perm_unique {a b : List (Key × Nat)} (ha : Sorted a) (hb : Sorted b)
    (hp : a.Perm b) : a = b :=
  @List.eq_of_perm_of_sorted _ (fun x y : Key × Nat => strLess x.1 y.1 = true)
    ⟨fun _ _ h1 h2 => absurd h2 (by simp [strLess_asymm h1])⟩ a b hp ha hb

theorem sorted_nodup {es : List (Key × Nat)} (h : Sorted es) : es.Nodup :=
  (sorted_keys_nodup h).of_map Prod.fst

theorem sorted_ext {a b : List (Key × Nat)} (ha : Sorted a) (hb : Sorted b)
    (h : ∀ e, e ∈ a ↔ e ∈ b) : a = b :=
  sorted_perm_unique ha hb ((List.perm_ext_iff_of_nodup (sorted_nodup ha) (sorted_nodup hb)).2 h)

/-- C11: for a tree whose in-order keys are strictly ascending and whose keys are at
most 65535 bytes long, `save` writes exactly the file of the specification for the
entries of the tree taken in ascending key order: the number of nodes as a 64-bit
unsigned integer, then per entry the key length on 16 bits, the key bytes and the value
on 64 bits, and nothing else; for the empty tree it writes the count 0 alone. -/
theorem save_writes_format (root : Node) (hasc : Ascending (keys root))
    (hlen : ∀ k ∈ keys root, k.length ≤ 65535) :
    (∀ es : List (Key × Nat), es.Perm (inorder root) → Sorted es →
      save root = formatFile es ∧ es.length = size root) ∧
    save .nil = writeLE 8 0 := by
  refine ⟨fun es hp hs => ?_, rfl⟩
  have hes : es = inorder root := sorted_perm_unique hs (ascending_ordered hasc) hp
  subst hes
  refine ⟨?_, (size_eq_length root).symm⟩
  rw [save_eq, formatFile, size_eq_length, encodeEntries_eq_format]
  intro e he
  exact hlen e.1 (List.mem_map_of_mem Prod.fst he)

theorem save_writes_format_witness :
    (∀ es : List (Key × Nat),
      es.Perm (inorder (.node [98] 1 2 (.node [97] 2 1 .nil .nil) .nil)) → Sorted es →
      save (.node [98] 1 2 (.node [97] 2 1 .nil .nil) .nil) = formatFile es ∧
        es.length = size (.node [98] 1 2 (.node [97] 2 1 .nil .nil) .nil)) ∧
    save .nil = writeLE 8 0 :=
  save_writes_format (.node [98] 1 2 (.node [97] 2 1 .nil .nil) .nil) (by decide) (by decide)

/-- C16: for a tree holding a key of more than 65535 bytes, `save` (which has no error
path for it) writes for that entry the 16-bit length field `L mod 65536` followed by
only the first `L mod 65536` bytes of the key and the value, so that the key bytes in
the file are not the stored key. -/
theorem save_truncates_long_key (root : Node) (k : Key) (v : Nat)
    (hmem : (k, v) ∈ inorder root) (hlong : 65535 < k.length) :
    ∃ l1 l2, inorder root = l1 ++ (k, v) :: l2 ∧
      save root = writeLE 8 (countNodes root) ++ encodeEntries l1 ++
        (writeLE 2 (k.length % 65536) ++ k.take (k.length % 65536) ++ writeLE 8 v) ++
        encodeEntries l2 ∧
      k.take (k.length % 65536) ≠ k := by
  obtain ⟨l1, l2, h⟩ := List.append_of_mem hmem
  refine ⟨l1, l2, h, ?_, ?_⟩
  · rw [save, inorderSave_eq, h, encodeEntries_append, encodeEntries, encodeEntry]
    simp only [List.append_assoc]
    rfl
  · intro heq
    have hl := congrArg List.length heq
    rw [List.length_take] at hl
    have := Nat.mod_lt k.length (show 0 < 65536 by decide)
    omega

theorem save_truncates_long_key_witness :
    ∃ l1 l2, inorder (.node (List.replicate 65537 97) 5 1 .nil .nil) =
        l1 ++ (List.replicate 65537 97, 5) :: l2 ∧
      save (.node (List.replicate 65537 97) 5 1 .nil .nil) =
        writeLE 8 (countNodes (.node (List.replicate 65537 97) 5 1 .nil .nil)) ++
          encodeEntries l1 ++
          (writeLE 2 ((List.replicate 65537 97).length % 65536) ++
            (List.replicate 65537 97).take ((List.replicate 65537 97).length % 65536) ++
            writeLE 8 5) ++
          encodeEntries l2 ∧
      (List.replicate 65537 97).take ((List.replicate 65537 97).length % 65536) ≠
        List.replicate 65537 97 :=
  save_truncates_long_key (.node (List.replicate 65537 97) 5 1 .nil .nil)
    (List.replicate 65537 97) 5 (List.mem_cons_self _ _)
    (by rw [List.length_replicate]; decide)

/-- C20: two trees whose in-order keys are strictly ascending and that hold the same
set of (key, value) entries are saved as the same byte sequence, whatever their shapes
and the calls that built them. -/
theorem save_depends_on_entries_only (a b : Node) (ha : Ascending (keys a))
    (hb : Ascending (keys b)) (hsame : ∀ e, e ∈ inorder a ↔ e ∈ inorder b) :
    save a = save b := by
  have h : inorder a = inorder b :=
    sorted_ext (ascending_ordered ha) (ascending_ordered hb) hsame
  rw [save_eq, save_eq, size_eq_length, size_eq_length, h]

theorem save_depends_on_entries_only_witness :
    save (.node [98] 1 2 (.node [97] 2 1 .nil .nil) .nil) =
      save (.node [97] 2 2 .nil (.node [98] 1 1 .nil .nil)) :=
  save_depends_on_entries_only (.node [98] 1 2 (.node [97] 2 1 .nil .nil) .nil)
    (.node [97] 2 2 .nil (.node [98] 1 1 .nil .nil)) (by decide) (by decide)
    (fun _ => Iff.rfl)

/-- C14: case-insensitivity.  On a tree reached from the empty tree by `insert` /
`remove` calls, for two keys with the same lower-cased form, that form being absent,
`insert(k1, v)` succeeds, and then `find(k2)` returns found with `v`, `insert(k2, w)`
reports failure for every `w` and leaves the tree as it is, and `remove(k2)` succeeds. -/
theorem case_insensitive_keys (calls : List Call) (_hupd : ∀ c ∈ calls, c.isUpdate = true)
    (root : Node) (hreach : runCalls .nil calls = some root) (k1 k2 : Key) (v : Nat)
    (hsame : toLower k1 = toLower k2) (habs : toLower k1 ∉ keys root) :
    ∃ root2, insert root k1 v = some (root2, true) ∧ find root2 k2 = some v ∧
      (∀ w, insert root2 k2 w = some (root2, false)) ∧
      ∃ root3, remove root2 k2 = some (root3, true) := by
  have hinv := reachable_inv hreach
  rcases insertNode_cases (toLower k1) v hinv with ⟨hk, -⟩ | ⟨-, m, l1, l2, hm, im, e1, e2⟩
  · exact absurd hk habs
  · have hmem : (toLower k2, v) ∈ inorder m := by rw [e2, hsame]; simp
    have hkey : toLower k2 ∈ keys m := mem_keys_iff.2 ⟨v, hmem⟩
    refine ⟨m, by simp [insert, hm], (find_eq_some_iff im.2 k2 v).2 hmem, fun w => ?_, ?_⟩
    · rcases insertNode_cases (toLower k2) w im with ⟨-, ht⟩ | ⟨hk, -⟩
      · simp [insert, ht]
      · exact absurd hkey hk
    · rcases removeNode_cases (toLower k2) im with ⟨hk, -⟩ | ⟨-, m3, w3, a, b, hm3, -⟩
      · exact absurd hkey hk
      · exact ⟨m3, by simp [remove, hm3]⟩

theorem case_insensitive_keys_witness :
    ∃ root2, insert (.node [98] 1 1 .nil .nil) [70, 111, 111] 1 = some (root2, true) ∧
      find root2 [102, 111, 111] = some 1 ∧
      (∀ w, insert root2 [102, 111, 111] w = some (root2, false)) ∧
      ∃ root3, remove root2 [102, 111, 111] = some (root3, true) :=
  case_insensitive_keys [.insert [66] 1] (by decide) (.node [98] 1 1 .nil .nil) (by decide)
    [70, 111, 111] [102, 111, 111] 1 (by decide) (by decide)

/-- C15: starting from the empty tree, every finite sequence of `insert`, `remove` and
`load` calls leaves a tree in which the cached height of every node is the true height
of its subtree, that is `1 + max` of the true heights below it, a leaf having height 1
and an empty subtree height 0. -/
theorem cached_heights_exact_after_calls (calls : List Call) :
    ∃ root, runCalls .nil calls = some root ∧ HeightsExact root ∧
      height root = (realHeight root : Int) := by
  obtain ⟨root, h, hinv⟩ := runCalls_inv calls inv_nil
  exact ⟨root, h, avl_heightsExact hinv.1, avl_height_eq hinv.1⟩

/-! ## True heights and cached heights -/

theorem heightsExact_height : ∀ {n : Node}, HeightsExact n → height n = (realHeight n : Int)
  | .nil, _ => rfl
  | .node _ _ _ _ _, ⟨e, _, _⟩ => by rw [height_node, e, realHeight]

theorem avl_of_balanced_exact : ∀ {n : Node}, Balanced n → HeightsExact n → Avl n
  | .nil, _, _ => trivial
  | .node _ _ _ l r, ⟨b1, b2, bl, br⟩, ⟨e, xl, xr⟩ => by
    refine ⟨?_, ?_, ?_, avl_of_balanced_exact bl xl, avl_of_balanced_exact br xr⟩
    · rw [heightsExact_height xl, heightsExact_height xr, e]; push_cast; rfl
    · rw [heightsExact_height xl, heightsExact_height xr]; omega
    · rw [heightsExact_height xl, heightsExact_height xr]; omega

/-- C17: when the two subtrees of a node satisfy the AVL balance condition with correct
cached heights and their heights differ by at most 2, `balance` returns a subtree that
satisfies the AVL balance condition at every node with correct cached heights, has the
same in-order sequence of entries, and whose height is `1 + max` of the two subtree
heights of the input or one less. -/
theorem balance_restores_avl (k : Key) (v : Nat) (h : Int) (l r : Node)
    (hl : Balanced l ∧ HeightsExact l) (hr : Balanced r ∧ HeightsExact r)
    (hd1 : realHeight l ≤ realHeight r + 2) (hd2 : realHeight r ≤ realHeight l + 2) :
    ∃ m, balance (.node k v h l r) = some m ∧ Balanced m ∧ HeightsExact m ∧
      inorder m = inorder (.node k v h l r) ∧
      (realHeight m = 1 + max (realHeight l) (realHeight r) ∨
        realHeight m + 1 = 1 + max (realHeight l) (realHeight r)) := by
  have al := avl_of_balanced_exact hl.1 hl.2
  have ar := avl_of_balanced_exact hr.1 hr.2
  have el := avl_height_eq al
  have er := avl_height_eq ar
  obtain ⟨m, hb, am, hi, hh⟩ := balance_spec k v h al ar (by omega) (by omega)
  refine ⟨m, hb, avl_balanced am, avl_heightsExact am, hi, ?_⟩
  have em := avl_height_eq am
  rw [em, el, er] at hh
  omega

theorem balance_restores_avl_witness :
    ∃ m, balance (.node [99] 3 7 (.node [98] 2 2 (.node [97] 1 1 .nil .nil) .nil) .nil) =
        some m ∧ Balanced m ∧ HeightsExact m ∧
      inorder m =
        inorder (.node [99] 3 7 (.node [98] 2 2 (.node [97] 1 1 .nil .nil) .nil) .nil) ∧
      (realHeight m = 1 + max (realHeight (.node [98] 2 2 (.node [97] 1 1 .nil .nil) .nil))
          (realHeight .nil) ∨
        realHeight m + 1 =
          1 + max (realHeight (.node [98] 2 2 (.node [97] 1 1 .nil .nil) .nil))
            (realHeight .nil)) :=
  balance_restores_avl [99] 3 7 (.node [98] 2 2 (.node [97] 1 1 .nil .nil) .nil) .nil
    (by simp [Balanced, HeightsExact, realHeight]) (by simp [Balanced, HeightsExact])
    (by decide) (by decide)

/-! ## Rotations never miss the child they promote -/

theorem rotateRight_eq_none_iff (k : Key) (v : Nat) (h : Int) (l r : Node) :
    rotateRight (.node k v h l r) = none ↔ l = .nil := by
  cases l with
  | nil => simp [rotateRight]
  | node lk lv lh ll lr => simp [rotateRight_node]

theorem rotateLeft_eq_none_iff (k : Key) (v : Nat) (h : Int) (l r : Node) :
    rotateLeft (.node k v h l r) = none ↔ r = .nil := by
  cases r with
  | nil => simp [rotateLeft]
  | node rk rv rh rl rr => simp [rotateLeft_node]

theorem heightsExact_fresh {l r : Node} (k : Key) (v : Nat) (xl : HeightsExact l)
    (xr : HeightsExact r) : HeightsExact (fresh k v l r) := by
  refine ⟨?_, xl, xr⟩
  rw [heightsExact_height xl, heightsExact_height xr]; push_cast; rfl

theorem heightsExact_nonneg {n : Node} (hx : HeightsExact n) : 0 ≤ height n := by
  rw [heightsExact_height hx]; exact Int.ofNat_nonneg _

/-- With exact cached heights below it, `balance` finds every child it dereferences. -/
theorem balance_total {l r : Node} (k : Key) (v : Nat) (h : Int)
    (xl : HeightsExact l) (xr : HeightsExact r) :
    ∃ m, balance (.node k v h l r) = some m ∧ HeightsExact m := by
  have hl0 := heightsExact_nonneg xl
  have hr0 := heightsExact_nonneg xr
  by_cases c1 : height r - height l < -1
  · cases l with
    | nil => simp only [height_nil] at c1; omega
    | node lk lv lh ll lr =>
      obtain ⟨-, xll, xlr⟩ := xl
      have hll0 := heightsExact_nonneg xll
      simp only [height_node] at c1
      by_cases c2 : height lr - height ll > 0
      · cases lr with
        | nil => simp only [height_nil] at c2; omega
        | node mk mv mh ml mr =>
          obtain ⟨-, xml, xmr⟩ := xlr
          simp only [height_node] at c2
          exact ⟨_, balance_left_right k v h lk lv lh mk mv mh ll ml mr r c1 c2,
            heightsExact_fresh _ _ (heightsExact_fresh _ _ xll xml)
              (heightsExact_fresh _ _ xmr xr)⟩
      · exact ⟨_, balance_left_left k v h lk lv lh ll lr r c1 c2,
          heightsExact_fresh _ _ xll (heightsExact_fresh _ _ xlr xr)⟩
  · by_cases c3 : height r - height l > 1
    · cases r with
      | nil => simp only [height_nil] at c3; omega
      | node rk rv rh rl rr =>
        obtain ⟨-, xrl, xrr⟩ := xr
        have hrr0 := heightsExact_nonneg xrr
        simp only [height_node] at c1 c3
        by_cases c4 : height rr - height rl < 0
        · cases rl with
          | nil => simp only [height_nil] at c4; omega
          | node mk mv mh ml mr =>
            obtain ⟨-, xml, xmr⟩ := xrl
            simp only [height_node] at c4
            exact ⟨_, balance_right_left k v h rk rv rh mk mv mh l ml mr rr c1 c3 c4,
              heightsExact_fresh _ _ (heightsExact_fresh _ _ xl xml)
                (heightsExact_fresh _ _ xmr xrr)⟩
        · exact ⟨_, balance_right_right k v h rk rv rh l rl rr c1 c3 c4,
            heightsExact_fresh _ _ (heightsExact_fresh _ _ xl xrl) xrr⟩
    · exact ⟨_, balance_keep k v h l r c1 c3, heightsExact_fresh _ _ xl xr⟩

theorem insertNode_total (k : Key) (v : Nat) : ∀ (n : Node), HeightsExact n →
    (∃ m, insertNode n k v = .ok m ∧ HeightsExact m) ∨ ∃ e m, insertNode n k v = .thrown e m
  | .nil, _ => Or.inl ⟨_, rfl, by simp [HeightsExact, realHeight]⟩
  | .node nk nv h l r, ⟨_, xl, xr⟩ => by
    rw [insertNode]
    split_ifs with c1 c2
    · rcases insertNode_total k v l xl with ⟨m, hm, xm⟩ | ⟨e, m, hm⟩
      · obtain ⟨m2, hb, xm2⟩ := balance_total nk nv h xm xr
        exact Or.inl ⟨m2, by simp only [hm, returnBalance_eq hb], xm2⟩
      · exact Or.inr ⟨e, _, by rw [hm]⟩
    · rcases insertNode_total k v r xr with ⟨m, hm, xm⟩ | ⟨e, m, hm⟩
      · obtain ⟨m2, hb, xm2⟩ := balance_total nk nv h xl xm
        exact Or.inl ⟨m2, by simp only [hm, returnBalance_eq hb], xm2⟩
      · exact Or.inr ⟨e, _, by rw [hm]⟩
    · exact Or.inr ⟨_, _, rfl⟩

theorem removeNode_total : ∀ (n : Node) (k : Key), HeightsExact n →
    (∃ m, removeNode n k = .ok m ∧ HeightsExact m) ∨ ∃ e m, removeNode n k = .thrown e m
  | .nil, _, _ => Or.inr ⟨_, _, rfl⟩
  | .node nk nv h l r, k, ⟨_, xl, xr⟩ => by
    have ihl := removeNode_total l k xl
    have ihr := fun k2 => removeNode_total r k2 xr
    rw [removeNode]
    by_cases c1 : strLess k nk = true
    · rw [if_pos c1]
      rcases ihl with ⟨m, hm, xm⟩ | ⟨e, m, hm⟩
      · obtain ⟨m2, hb, xm2⟩ := balance_total nk nv h xm xr
        exact Or.inl ⟨m2, by simp only [hm, returnBalance_eq hb], xm2⟩
      · exact Or.inr ⟨e, _, by rw [hm]⟩
    · rw [if_neg c1]
      by_cases c2 : strLess nk k = true
      · rw [if_pos c2]
        rcases ihr k with ⟨m, hm, xm⟩ | ⟨e, m, hm⟩
        · obtain ⟨m2, hb, xm2⟩ := balance_total nk nv h xl xm
          exact Or.inl ⟨m2, by simp only [hm, returnBalance_eq hb], xm2⟩
        · exact Or.inr ⟨e, _, by rw [hm]⟩
      · rw [if_neg c2]
        by_cases c3 : (l.isNull || r.isNull) = true
        · rw [if_pos c3]
          refine Or.inl ⟨_, rfl, ?_⟩
          split_ifs
          · exact xl
          · exact xr
        · rw [if_neg c3]
          cases r with
          | nil => simp [Node.isNull] at c3
          | node rk rv rh rl rr =>
            obtain ⟨sk, sv, sh, sr, rest, hmin, -⟩ := minValueNode_spec rk rv rh rl rr
            simp only [hmin]
            rcases ihr sk with ⟨m, hm, xm⟩ | ⟨e, m, hm⟩
            · obtain ⟨m2, hb, xm2⟩ := balance_total sk sv h xl xm
              exact Or.inl ⟨m2, by simp only [hm, returnBalance_eq hb], xm2⟩
            · exact Or.inr ⟨e, _, by rw [hm]⟩

/-- C19: on a tree whose cached heights are correct, no call of `balance` made by
`insertNode` or `removeNode` dereferences a missing child: `rotateRight` is only applied
to a node with a left child and `rotateLeft` only to a node with a right child, the
inner rotation of a double rotation included, so neither call ends in the null
dereference, and `balance` on the node itself returns. -/
theorem rotations_find_their_child (n : Node) (hx : HeightsExact n) (k : Key) (v : Nat) :
    insertNode n k v ≠ .undefined ∧ removeNode n k ≠ .undefined ∧
      (n ≠ .nil → balance n ≠ none) := by
  refine ⟨?_, ?_, ?_⟩
  · rcases insertNode_total k v n hx with ⟨m, hm, -⟩ | ⟨e, m, hm⟩ <;> simp [hm]
  · rcases removeNode_total n k hx with ⟨m, hm, -⟩ | ⟨e, m, hm⟩ <;> simp [hm]
  · intro hn
    cases n with
    | nil => exact absurd rfl hn
    | node nk nv h l r =>
      obtain ⟨m, hm, -⟩ := balance_total nk nv h hx.2.1 hx.2.2
      simp [hm]

theorem rotations_find_their_child_witness :
    insertNode (.node [98] 1 2 (.node [97] 2 1 .nil .nil) .nil) [96] 3 ≠ .undefined ∧
      removeNode (.node [98] 1 2 (.node [97] 2 1 .nil .nil) .nil) [96] ≠ .undefined ∧
      (Node.node [98] 1 2 (.node [97] 2 1 .nil .nil) .nil ≠ Node.nil →
        balance (.node [98] 1 2 (.node [97] 2 1 .nil .nil) .nil) ≠ none) :=
  rotations_find_their_child (.node [98] 1 2 (.node [97] 2 1 .nil .nil) .nil)
    (by simp [HeightsExact, realHeight]) [96] 3

/-! ## Removal of a node with two children -/

theorem removeLeftmost_not_thrown : ∀ (k : Key) (v : Nat) (h : Int) (l r : Node) (e : Exn)
    (m : Node), removeLeftmost (.node k v h l r) ≠ .thrown e m
  | k, v, h, .nil, r, e, m => by simp [removeLeftmost]
  | k, v, h, .node lk lv lh ll lr, r, e, m => by
    have ih := removeLeftmost_not_thrown lk lv lh ll lr
    rw [removeLeftmost]
    cases hl : removeLeftmost (.node lk lv lh ll lr) with
    | ok l1 =>
      simp only [returnBalance]
      cases balance (.node k v h l1 r) <;> simp
    | thrown e2 l1 => exact absurd hl (ih e2 l1)
    | undefined => simp

theorem removeNode_leftmost : ∀ (k : Key) (v : Nat) (h : Int) (l r : Node)
    (sk : Key) (sv : Nat) (sh : Int) (sl sr : Node),
    Ordered (.node k v h l r) → minValueNode (.node k v h l r) = some (.node sk sv sh sl sr) →
    removeNode (.node k v h l r) sk = removeLeftmost (.node k v h l r)
  | k, v, h, .nil, r, sk, sv, sh, sl, sr, _, hmin => by
    simp only [minValueNode, Option.some.injEq, Node.node.injEq] at hmin
    obtain ⟨rfl, -⟩ := hmin
    rw [removeNode, removeLeftmost]
    simp [strLess_irrefl, Node.isNull]
  | k, v, h, .node lk lv lh ll lr, r, sk, sv, sh, sl, sr, ho, hmin => by
    obtain ⟨ol, -, hl, -⟩ := ordered_node.1 ho
    rw [minValueNode] at hmin
    obtain ⟨sk2, sv2, sh2, sr2, rest, hmin2, hrest⟩ := minValueNode_spec lk lv lh ll lr
    rw [hmin2] at hmin
    simp only [Option.some.injEq, Node.node.injEq] at hmin
    obtain ⟨rfl, rfl, -⟩ := hmin
    have c1 : strLess sk2 k = true := hl (sk2, sv2) (by rw [hrest]; simp)
    rw [removeNode, if_pos c1, removeLeftmost,
      removeNode_leftmost lk lv lh ll lr sk2 sv2 sh2 .nil sr2 ol hmin2]

/-- C18: in `removeNode` on a tree whose in-order keys are strictly ascending, at a node
with two children that holds the key to remove, the retained node receives the key and
value of the leftmost node of its right subtree, which is the entry with the smallest
key greater than the removed key; the recursive removal of that key from the right
subtree never throws "NoSuchWord", and it is the single-child removal of that leftmost
node, which has no left child. -/
theorem successor_copy_up (k : Key) (v : Nat) (h : Int) (l r : Node)
    (hl : l.isNull = false) (hr : r.isNull = false)
    (hasc : Ascending (keys (.node k v h l r))) :
    ∃ sk sv sh sr rest,
      minValueNode r = some (.node sk sv sh .nil sr) ∧ inorder r = (sk, sv) :: rest ∧
      strLess k sk = true ∧
      (∀ e ∈ inorder (.node k v h l r), strLess k e.1 = true →
        e = (sk, sv) ∨ strLess sk e.1 = true) ∧
      removeNode r sk = removeLeftmost r ∧
      (∀ e m, removeNode r sk ≠ .thrown e m) ∧
      removeNode (.node k v h l r) k =
        match removeNode r sk with
        | .ok r1 => returnBalance (.node sk sv h l r1)
        | .thrown e r1 => .thrown e (.node sk sv h l r1)
        | .undefined => .undefined := by
  have ho := ascending_ordered hasc
  obtain ⟨-, hor, hlt, hgt⟩ := ordered_node.1 ho
  cases r with
  | nil => simp [Node.isNull] at hr
  | node rk rv rh rl rr =>
    obtain ⟨sk, sv, sh, sr, rest, hmin, hrest⟩ := minValueNode_spec rk rv rh rl rr
    have hrem := removeNode_leftmost rk rv rh rl rr sk sv sh .nil sr hor hmin
    have hsorted : Sorted ((sk, sv) :: rest) := hrest ▸ hor
    refine ⟨sk, sv, sh, sr, rest, hmin, hrest, hgt (sk, sv) (by rw [hrest]; simp), ?_, hrem, ?_, ?_⟩
    · intro e he hke
      simp only [inorder, List.mem_append, List.mem_cons] at he
      rcases he with he | rfl | he
      · have := strLess_asymm (hlt e he)
        simp [hke] at this
      · simp [strLess_irrefl] at hke
      · have he2 : e ∈ (sk, sv) :: rest := by
          rw [← hrest]
          simpa only [inorder, List.mem_append, List.mem_cons] using he
        rcases List.mem_cons.1 he2 with rfl | he3
        · exact Or.inl rfl
        · exact Or.inr ((List.pairwise_cons.1 hsorted).1 e he3)
    · intro e m
      rw [hrem]
      exact removeLeftmost_not_thrown rk rv rh rl rr e m
    · rw [removeNode_two_children k v h l _ hl hr, hmin]

theorem successor_copy_up_witness :
    ∃ sk sv sh sr rest,
      minValueNode (.node [100] 4 2 (.node [99] 3 1 .nil .nil) .nil) =
        some (.node sk sv sh .nil sr) ∧
      inorder (.node [100] 4 2 (.node [99] 3 1 .nil .nil) .nil) = (sk, sv) :: rest ∧
      strLess [98] sk = true ∧
      (∀ e ∈ inorder (.node [98] 2 3 (.node [97] 1 1 .nil .nil)
          (.node [100] 4 2 (.node [99] 3 1 .nil .nil) .nil)),
        strLess [98] e.1 = true → e = (sk, sv) ∨ strLess sk e.1 = true) ∧
      removeNode (.node [100] 4 2 (.node [99] 3 1 .nil .nil) .nil) sk =
        removeLeftmost (.node [100] 4 2 (.node [99] 3 1 .nil .nil) .nil) ∧
      (∀ e m, removeNode (.node [100] 4 2 (.node [99] 3 1 .nil .nil) .nil) sk ≠
        .thrown e m) ∧
      removeNode (.node [98] 2 3 (.node [97] 1 1 .nil .nil)
          (.node [100] 4 2 (.node [99] 3 1 .nil .nil) .nil)) [98] =
        match removeNode (.node [100] 4 2 (.node [99] 3 1 .nil .nil) .nil) sk with
        | .ok r1 => returnBalance (.node sk sv 3 (.node [97] 1 1 .nil .nil) r1)
        | .thrown e r1 => .thrown e (.node sk sv 3 (.node [97] 1 1 .nil .nil) r1)
        | .undefined => .undefined :=
  successor_copy_up [98] 2 3 (.node [97] 1 1 .nil .nil)
    (.node [100] 4 2 (.node [99] 3 1 .nil .nil) .nil) rfl rfl (by decide)

/-! ## What `load` puts in the tree -/

theorem tolower_idem (c : Nat) : tolower (tolower c) = tolower c := by
  unfold tolower
  split_ifs <;> omega

theorem toLower_idem (s : Key) : toLower (toLower s) = toLower s := by
  simp [toLower, tolower_idem]

/-- The ways the loop of `load` can end on a temporary tree that satisfies the
invariant: normally, the file holding all its declared entries and the new tree holding
only entries of `tmp` and of the file; with the format error; or with the exception of
`insertNode`.  In the last two cases the live tree is the old one. -/
theorem loadLoop_outcome (root : Node) : ∀ (todo : Nat) (s : List Nat) (tmp : Node),
    Inv tmp →
    (∃ r es, loadLoop root todo s tmp = .ok r ∧ decodeEntries todo s = .complete es ∧
      ∀ e ∈ inorder r, e ∈ inorder tmp ∨ e ∈ es) ∨
    loadLoop root todo s tmp = .invalidFormat root ∨
    loadLoop root todo s tmp = .logicError root
  | 0, s, tmp, _ => Or.inl ⟨tmp, [], rfl, rfl, fun e he => Or.inl he⟩
  | todo + 1, s, tmp, ht => by
    rw [loadLoop_step, decodeEntries]
    cases h1 : decodeEntry s with
    | none => exact Or.inr (Or.inl rfl)
    | some p =>
      obtain ⟨e, s1⟩ := p
      simp only
      rcases insertNode_cases e.1 e.2 ht with ⟨-, hth⟩ | ⟨-, m, l1, l2, hm, im, e1, e2⟩
      · rw [hth]
        exact Or.inr (Or.inr rfl)
      · rw [hm]
        rcases loadLoop_outcome root todo s1 m im with ⟨r, es, hr, hd, hmem⟩ | h | h
        · refine Or.inl ⟨r, e :: es, hr, by rw [hd], fun x hx => ?_⟩
          rcases hmem x hx with hx | hx
          · rw [e2] at hx
            rw [e1]
            simp only [List.mem_append, List.mem_cons] at hx ⊢
            rcases hx with hx | rfl | hx
            · exact Or.inl (Or.inl hx)
            · exact Or.inr (Or.inl rfl)
            · exact Or.inl (Or.inr hx)
          · exact Or.inr (List.mem_cons_of_mem _ hx)
        · exact Or.inr (Or.inl h)
        · exact Or.inr (Or.inr h)

theorem load_outcome (root : Node) (file : List Nat) :
    (∃ r es, load root file = .ok r ∧ decodeFile file = .complete es ∧
      ∀ e ∈ inorder r, e ∈ es) ∨
    load root file = .invalidFormat root ∨ load root file = .logicError root := by
  rw [load, decodeFile]
  cases h1 : streamRead 8 file with
  | none => exact Or.inr (Or.inl rfl)
  | some p =>
    rcases loadLoop_outcome root (readLE p.1) p.2 .nil inv_nil with ⟨r, es, hr, hd, hmem⟩ | h | h
    · refine Or.inl ⟨r, es, hr, hd, fun e he => ?_⟩
      rcases hmem e he with h | h
      · simp [inorder] at h
      · exact h
    · exact Or.inr (Or.inl h)
    · exact Or.inr (Or.inr h)

/-- When a key of the file is one that `tmp` holds already or occurs twice in the file,
all declared entries being there, the exception of `insertNode` leaves the loop. -/
theorem loadLoop_duplicate (root : Node) : ∀ (todo : Nat) (s : List Nat) (tmp : Node)
    (es : List (Key × Nat)), Inv tmp → decodeEntries todo s = .complete es →
    ¬ ((es.map Prod.fst).Nodup ∧ ∀ e ∈ es, e.1 ∉ keys tmp) →
    loadLoop root todo s tmp = .logicError root
  | 0, s, tmp, es, _, hd, hdup => by
    simp only [decodeEntries, Decoded.complete.injEq] at hd
    subst hd
    simp at hdup
  | todo + 1, s, tmp, es, ht, hd, hdup => by
    rw [decodeEntries] at hd
    rw [loadLoop_step]
    cases h1 : decodeEntry s with
    | none => rw [h1] at hd; simp at hd
    | some p =>
      obtain ⟨e, s1⟩ := p
      rw [h1] at hd
      simp only at hd ⊢
      cases h2 : decodeEntries todo s1 with
      | truncated es1 => rw [h2] at hd; simp at hd
      | complete es1 =>
        rw [h2] at hd
        simp only [Decoded.complete.injEq] at hd
        subst hd
        rcases insertNode_cases e.1 e.2 ht with ⟨-, hth⟩ | ⟨hnew, m, l1, l2, hm, im, e1, e2⟩
        · rw [hth]
        · rw [hm]
          apply loadLoop_duplicate root todo s1 m es1 im h2
          rintro ⟨hnd, hdisj⟩
          have hkm : ∀ x, x ∈ keys m ↔ x = e.1 ∨ x ∈ keys tmp := by
            intro x
            simp only [keys, e1, e2, List.map_append, List.map_cons, List.mem_append,
              List.mem_cons]
            tauto
          apply hdup
          refine ⟨?_, ?_⟩
          · rw [List.map_cons, List.nodup_cons]
            refine ⟨fun hmem => ?_, hnd⟩
            obtain ⟨x, hx, hxe⟩ := List.mem_map.1 hmem
            exact hdisj x hx ((hkm x.1).2 (Or.inl hxe))
          · intro x hx
            rcases List.mem_cons.1 hx with rfl | hx
            · exact hnew
            · exact fun hxt => hdisj x hx ((hkm x.1).2 (Or.inr hxt))

theorem load_duplicate (root : Node) (file : List Nat) (es : List (Key × Nat))
    (hdec : decodeFile file = .complete es) (hdup : ¬ (es.map Prod.fst).Nodup) :
    load root file = .logicError root := by
  rw [decodeFile] at hdec
  rw [load]
  cases h1 : streamRead 8 file with
  | none => rw [h1] at hdec; simp at hdec
  | some p =>
    rw [h1] at hdec
    exact loadLoop_duplicate root (readLE p.1) p.2 .nil es inv_nil hdec fun h => hdup h.1

theorem applyCall_normalized {root : Node} (hn : Inv root)
    (hkeys : ∀ k ∈ keys root, toLower k = k) (c : Call) (hc : c.keysNormalized = true) :
    ∃ r, applyCall root c = some r ∧ Inv r ∧ ∀ k ∈ keys r, toLower k = k := by
  cases c with
  | insert key value =>
    rcases insertNode_cases (toLower key) value hn with ⟨-, ht⟩ | ⟨-, m, l1, l2, hm, im, e1, e2⟩
    · exact ⟨root, by simp [applyCall, insert, ht], hn, hkeys⟩
    · refine ⟨m, by simp [applyCall, insert, hm], im, fun k hk => ?_⟩
      simp only [keys, e1, e2, List.map_append, List.map_cons, List.mem_append,
        List.mem_cons] at hk hkeys
      rcases hk with hk | rfl | hk
      · exact hkeys k (Or.inl hk)
      · exact toLower_idem key
      · exact hkeys k (Or.inr hk)
  | remove key =>
    rcases removeNode_cases (toLower key) hn with ⟨-, ht⟩ | ⟨-, m, w, l1, l2, hm, im, e1, e2⟩
    · exact ⟨root, by simp [applyCall, remove, ht], hn, hkeys⟩
    · refine ⟨m, by simp [applyCall, remove, hm], im, fun k hk => ?_⟩
      simp only [keys, e1, e2, List.map_append, List.map_cons, List.mem_append,
        List.mem_cons] at hk hkeys
      rcases hk with hk | hk
      · exact hkeys k (Or.inl hk)
      · exact hkeys k (Or.inr (Or.inr hk))
  | load file =>
    obtain ⟨r, hr, ir⟩ := applyCall_inv hn (.load file)
    refine ⟨r, hr, ir, ?_⟩
    rcases load_outcome root file with ⟨r2, es, h, hd, hmem⟩ | h | h
    · simp only [applyCall, h, Option.some.injEq] at hr
      subst hr
      simp only [Call.keysNormalized, hd, List.all_eq_true, beq_iff_eq] at hc
      intro k hk
      obtain ⟨e, he, rfl⟩ := List.mem_map.1 hk
      exact hc e (hmem e he)
    · simp only [applyCall, h, Option.some.injEq] at hr
      exact hr ▸ hkeys
    · simp only [applyCall, h, Option.some.injEq] at hr
      exact hr ▸ hkeys

theorem runCalls_normalized : ∀ (calls : List Call) {root : Node}, Inv root →
    (∀ k ∈ keys root, toLower k = k) → (∀ c ∈ calls, c.keysNormalized = true) →
    ∃ r, runCalls root calls = some r ∧ ∀ k ∈ keys r, toLower k = k
  | [], root, _, hk, _ => ⟨root, rfl, hk⟩
  | c :: cs, root, hn, hk, hc => by
    obtain ⟨r, h, ir, hkr⟩ := applyCall_normalized hn hk c (hc c (List.mem_cons_self _ _))
    obtain ⟨r2, h2, hk2⟩ :=
      runCalls_normalized cs ir hkr fun x hx => hc x (List.mem_cons_of_mem _ hx)
    exact ⟨r2, by simp [runCalls, h, h2], hk2⟩

/-- C12, the code at a file with a duplicate key: the file holds the count 2 and the two
complete entries ("a", 5) and ("a", 6); `load` does not complete: the exception thrown
by `insertNode` at the second entry leaves `load`, and the live tree is the old one
(`insert` would have caught it and rejected the entry). -/
theorem load_duplicate_key_throws :
    decodeFile [2, 0, 0, 0, 0, 0, 0, 0, 1, 0, 97, 5, 0, 0, 0, 0, 0, 0, 0,
        1, 0, 97, 6, 0, 0, 0, 0, 0, 0, 0] = .complete [([97], 5), ([97], 6)] ∧
      load (.node [98] 1 1 .nil .nil)
        [2, 0, 0, 0, 0, 0, 0, 0, 1, 0, 97, 5, 0, 0, 0, 0, 0, 0, 0,
          1, 0, 97, 6, 0, 0, 0, 0, 0, 0, 0] = .logicError (.node [98] 1 1 .nil .nil) := by
  decide

/-- C13, the code at a file with an upper-case key: loading the file that holds the
single entry ("A", 5) into the empty tree succeeds and stores the key "A" as it is,
which is not its own lower-casing (`insert` would have stored "a").  The entry can then
be neither found nor removed under its own key, and `insert("A", 7)` succeeds and puts
"a" beside it, two entries with one normalized key. -/
theorem load_stores_upper_case_key :
    ∃ root, runCalls .nil [.load [1, 0, 0, 0, 0, 0, 0, 0, 1, 0, 65, 5, 0, 0, 0, 0, 0, 0, 0]] =
        some root ∧ (¬ ∀ k ∈ keys root, toLower k = k) ∧
      find root [65] = none ∧ remove root [65] = some (root, false) ∧
      ∃ root2, insert root [65] 7 = some (root2, true) ∧ keys root2 = [[65], [97]] :=
  ⟨.node [65] 5 1 .nil .nil, by decide, by decide, by decide, by decide,
    .node [65] 5 2 .nil (.node [97] 7 1 .nil .nil), by decide, by decide⟩

end AVLTree
